import Mathlib

/-!
Verification of the ChessBot engine (`ChessEngine.py`).

The source stores each board square as a two-character string: the first
character is the color (`'w'`, `'b'`, or `'-'`), the second the piece type
(`'R'`, `'N'`, `'B'`, `'Q'`, `'K'`, `'p'`, or `'-'`).  We model the two
characters by two small inductive types and a square as their pair, so that
the source's indexing `piece[0]` / `piece[1]` becomes `.1` / `.2`.

Python list indexing wraps negative indices in `[-len, 0)`; this matters
because `getPawnMoves` indexes `board[row - 1]` without a lower bound check.
`pyIdx` reproduces that semantics (a genuinely out-of-range index, which
would raise `IndexError` in Python and is unreachable in the engine, returns
the supplied default).
-/

set_option maxRecDepth 10000

namespace ChessBot

/-- Color character of a square: `'w'`, `'b'`, or `'-'` (empty). -/
inductive CChar where
  | cw
  | cb
  | cd
deriving DecidableEq, Repr

/-- Piece-type character of a square: `'p' 'R' 'N' 'B' 'Q' 'K'` or `'-'`. -/
inductive TChar where
  | tp
  | tR
  | tN
  | tB
  | tQ
  | tK
  | td
deriving DecidableEq, Repr

/-- A board square, mirroring the source's two-character string. -/
abbrev Square := CChar × TChar

/-- The empty square `"--"`. -/
def empSq : Square := (CChar.cd, TChar.td)

/-- An 8×8 board: a list of rows, each a list of squares (the source's
`self.board`, a list of lists of strings). -/
abbrev Board := List (List Square)

/-- Python list indexing `l[i]`: indices in `[0, len)` index directly,
indices in `[-len, 0)` wrap from the end; anything else raises in Python
(unreachable in the engine) and here returns the default `d`. -/
def pyIdx (l : List α) (d : α) (i : Int) : α :=
  if 0 ≤ i then l.getD i.toNat d
  else if -(l.length : Int) ≤ i then l.getD (i + l.length).toNat d
  else d

/-- Python list assignment `l[i] = x` (same index semantics as `pyIdx`;
a genuinely out-of-range index, unreachable in the engine, is a no-op). -/
def pySet (l : List α) (i : Int) (x : α) : List α :=
  if 0 ≤ i then l.set i.toNat x
  else if -(l.length : Int) ≤ i then l.set (i + l.length).toNat x
  else l

/-- `board[r][c]`. -/
def atB (bd : Board) (r c : Int) : Square :=
  pyIdx (pyIdx bd [] r) empSq c

/-- `board[r][c] = x`. -/
def setB (bd : Board) (r c : Int) (x : Square) : Board :=
  pySet bd r (pySet (pyIdx bd [] r) c x)

/-- A pin or check record: `(row, col, dirRow, dirCol)` exactly as the
4-tuples the source appends to `self.pins` / `self.checks`. -/
abbrev Entry := Int × Int × Int × Int

/-- The `Move` class: start and end squares, the piece moved and captured
(read from the board at construction time), the pawn-promotion flag, and
the `moveID` used by `__eq__`. -/
structure Move where
  startRow : Int
  startCol : Int
  endRow : Int
  endCol : Int
  pieceMoved : Square
  pieceCaptured : Square
  isPawnPromotion : Bool
  moveID : Int
deriving DecidableEq, Repr

/-- `Move.__init__(startSq, endSq, board)`. -/
def mkMove (startSq endSq : Int × Int) (board : Board) : Move :=
  let pm := atB board startSq.1 startSq.2
  { startRow := startSq.1
    startCol := startSq.2
    endRow := endSq.1
    endCol := endSq.2
    pieceMoved := pm
    pieceCaptured := atB board endSq.1 endSq.2
    isPawnPromotion :=
      (pm = (CChar.cw, TChar.tp) ∧ endSq.1 = 0) ∨ (pm = (CChar.cb, TChar.tp) ∧ endSq.1 = 7)
    moveID := startSq.1 * 1000 + startSq.2 * 100 + endSq.1 * 10 + endSq.2 }

/-- `Move.__eq__`: equality of `moveID`s. -/
def moveEq (a b : Move) : Bool :=
  a.moveID == b.moveID

/-- The `GameState` class fields (the `moveFunctions` dispatch dictionary is
realised as the `match` in `pieceDispatch` below).  `moveLog` is kept most
recent first: Python appends to and pops from the end of the list, i.e.
uses it as a stack, which `::` / tail matching model exactly. -/
@[ext]
structure GameState where
  board : Board
  whiteToMove : Bool
  moveLog : List Move
  whiteKingLocation : Int × Int
  blackKingLocation : Int × Int
  inCheck : Bool
  pins : List Entry
  checks : List Entry
  checkMate : Bool
  staleMate : Bool
deriving DecidableEq, Repr

/-- The initial board of `GameState.__init__`. -/
def initialBoard : Board :=
  [ [(CChar.cb, TChar.tR), (CChar.cb, TChar.tN), (CChar.cb, TChar.tB), (CChar.cb, TChar.tQ),
     (CChar.cb, TChar.tK), (CChar.cb, TChar.tB), (CChar.cb, TChar.tN), (CChar.cb, TChar.tR)],
    [(CChar.cb, TChar.tp), (CChar.cb, TChar.tp), (CChar.cb, TChar.tp), (CChar.cb, TChar.tp),
     (CChar.cb, TChar.tp), (CChar.cb, TChar.tp), (CChar.cb, TChar.tp), (CChar.cb, TChar.tp)],
    [empSq, empSq, empSq, empSq, empSq, empSq, empSq, empSq],
    [empSq, empSq, empSq, empSq, empSq, empSq, empSq, empSq],
    [empSq, empSq, empSq, empSq, empSq, empSq, empSq, empSq],
    [empSq, empSq, empSq, empSq, empSq, empSq, empSq, empSq],
    [(CChar.cw, TChar.tp), (CChar.cw, TChar.tp), (CChar.cw, TChar.tp), (CChar.cw, TChar.tp),
     (CChar.cw, TChar.tp), (CChar.cw, TChar.tp), (CChar.cw, TChar.tp), (CChar.cw, TChar.tp)],
    [(CChar.cw, TChar.tR), (CChar.cw, TChar.tN), (CChar.cw, TChar.tB), (CChar.cw, TChar.tQ),
     (CChar.cw, TChar.tK), (CChar.cw, TChar.tB), (CChar.cw, TChar.tN), (CChar.cw, TChar.tR)] ]

/-- `GameState.__init__`. -/
def newGame : GameState :=
  { board := initialBoard
    whiteToMove := true
    moveLog := []
    whiteKingLocation := (7, 4)
    blackKingLocation := (0, 4)
    inCheck := false
    pins := []
    checks := []
    checkMate := false
    staleMate := false }

/-- `GameState.makeMove`. -/
def makeMove (s : GameState) (move : Move) : GameState :=
  let b1 := setB s.board move.startRow move.startCol empSq
  let b2 := setB b1 move.endRow move.endCol move.pieceMoved
  { s with
    board :=
      if move.isPawnPromotion then setB b2 move.endRow move.endCol (move.pieceMoved.1, TChar.tQ)
      else b2
    moveLog := move :: s.moveLog
    whiteToMove := !s.whiteToMove
    whiteKingLocation :=
      if move.pieceMoved = (CChar.cw, TChar.tK) then (move.endRow, move.endCol)
      else s.whiteKingLocation
    blackKingLocation :=
      if move.pieceMoved = (CChar.cb, TChar.tK) then (move.endRow, move.endCol)
      else s.blackKingLocation }

/-- `GameState.undoMove`. -/
def undoMove (s : GameState) : GameState :=
  match s.moveLog with
  | [] => s
  | move :: rest =>
    { s with
      board := setB (setB s.board move.startRow move.startCol move.pieceMoved)
        move.endRow move.endCol move.pieceCaptured
      moveLog := rest
      whiteToMove := !s.whiteToMove
      whiteKingLocation :=
        if move.pieceMoved = (CChar.cw, TChar.tK) then (move.startRow, move.startCol)
        else s.whiteKingLocation
      blackKingLocation :=
        if move.pieceMoved = (CChar.cb, TChar.tK) then (move.startRow, move.startCol)
        else s.blackKingLocation }

/-- The eight scan directions of `checkForPinsAndChecks`, in source order
(the index `j` of the Python loop is the list position). -/
def scanDirs : List (Int × Int) :=
  [(-1, 0), (0, -1), (1, 0), (0, 1), (-1, -1), (-1, 1), (1, -1), (1, 1)]

/-- The attacker test of `checkForPinsAndChecks` (the "5 possibilities"
conditional), with `j` the direction index and `i` the ray distance. -/
def isRayAttacker (enemyColor : CChar) (j : Nat) (i : Int) (t : TChar) : Prop :=
  (j ≤ 3 ∧ t = TChar.tR) ∨
  (4 ≤ j ∧ j ≤ 7 ∧ t = TChar.tB) ∨
  (i = 1 ∧ t = TChar.tp ∧
    ((enemyColor = CChar.cw ∧ 6 ≤ j ∧ j ≤ 7) ∨ (enemyColor = CChar.cb ∧ 4 ≤ j ∧ j ≤ 5))) ∨
  (t = TChar.tQ) ∨
  (i = 1 ∧ t = TChar.tK)

instance (enemyColor : CChar) (j : Nat) (i : Int) (t : TChar) :
    Decidable (isRayAttacker enemyColor j i t) := by
  unfold isRayAttacker; infer_instance

/-- The inner `for i in range(1, 8)` loop of `checkForPinsAndChecks` along
one direction: walk outward carrying the current `possiblePin`, returning
`(inCheck contribution, pins appended, checks appended)`.  Note the source
does NOT break after recording a pin, so a second attacker further along the
same ray appends the same pin again. -/
def walkRay (bd : Board) (enemyColor allyColor : CChar) (startRow startCol : Int)
    (j : Nat) (d : Int × Int) : Nat → Int → Option Entry → Bool × List Entry × List Entry
  | 0, _, _ => (false, [], [])
  | fuel + 1, i, possiblePin =>
    let endRow := startRow + d.1 * i
    let endCol := startCol + d.2 * i
    if 0 ≤ endRow ∧ endRow < 8 ∧ 0 ≤ endCol ∧ endCol < 8 then
      let endPiece := atB bd endRow endCol
      if endPiece.1 = allyColor then
        match possiblePin with
        | none => walkRay bd enemyColor allyColor startRow startCol j d fuel (i + 1)
            (some (endRow, endCol, d.1, d.2))
        | some _ => (false, [], [])
      else if endPiece.1 = enemyColor then
        if isRayAttacker enemyColor j i endPiece.2 then
          match possiblePin with
          | none => (true, [], [(endRow, endCol, d.1, d.2)])
          | some p =>
            let rest := walkRay bd enemyColor allyColor startRow startCol j d fuel (i + 1)
              (some p)
            (rest.1, p :: rest.2.1, rest.2.2)
        else (false, [], [])
      else walkRay bd enemyColor allyColor startRow startCol j d fuel (i + 1) possiblePin
    else (false, [], [])

/-- The knight offsets scanned at the end of `checkForPinsAndChecks`. -/
def knightScanMoves : List (Int × Int) :=
  [(-2, -1), (-2, 1), (-1, -2), (-1, 2), (1, -2), (1, 2), (2, -1), (2, 1)]

/-- The knight-check loop of `checkForPinsAndChecks`. -/
def knightChecks (bd : Board) (enemyColor : CChar) (startRow startCol : Int) :
    Bool × List Entry :=
  knightScanMoves.foldl
    (fun acc m =>
      let endRow := startRow + m.1
      let endCol := startCol + m.2
      if 0 ≤ endRow ∧ endRow < 8 ∧ 0 ≤ endCol ∧ endCol < 8 then
        let endPiece := atB bd endRow endCol
        if endPiece.1 = enemyColor ∧ endPiece.2 = TChar.tN then
          (true, acc.2 ++ [(endRow, endCol, m.1, m.2)])
        else acc
      else acc)
    (false, [])

/-- `checkForPinsAndChecks`, parameterised by the scan start square (the
source reads the start square from the king-location attribute, which
`getKingMoves` temporarily overwrites; passing it explicitly models that). -/
def checkForPinsAndChecksAt (bd : Board) (whiteToMove : Bool) (startRow startCol : Int) :
    Bool × List Entry × List Entry :=
  let enemyColor := if whiteToMove then CChar.cb else CChar.cw
  let allyColor := if whiteToMove then CChar.cw else CChar.cb
  let raysOut := (List.range 8).foldl
    (fun acc (j : Nat) =>
      let d := pyIdx scanDirs (0, 0) (j : Int)
      let out := walkRay bd enemyColor allyColor startRow startCol j d 7 1 none
      (acc.1 || out.1, acc.2.1 ++ out.2.1, acc.2.2 ++ out.2.2))
    (false, [], [])
  let kn := knightChecks bd enemyColor startRow startCol
  (raysOut.1 || kn.1, raysOut.2.1, raysOut.2.2 ++ kn.2)

/-- `GameState.checkForPinsAndChecks`. -/
def checkForPinsAndChecks (s : GameState) : Bool × List Entry × List Entry :=
  let start := if s.whiteToMove then s.whiteKingLocation else s.blackKingLocation
  checkForPinsAndChecksAt s.board s.whiteToMove start.1 start.2

/-- The backwards scan over `self.pins` shared by the piece generators: it
finds the LAST entry whose square matches `(row, col)` (the Python loop runs
from the end and breaks at the first hit). -/
def findPinFromBack (pins : List Entry) (row col : Int) : Option Entry :=
  pins.reverse.find? (fun p => p.1 == row && p.2.1 == col)

/-- `GameState.getPawnMoves`: returns the updated `self.pins` (the found
entry is removed — `list.remove` deletes the first occurrence of the value,
i.e. `List.erase`) and the moves appended. -/
def getPawnMoves (bd : Board) (whiteToMove : Bool) (pins : List Entry) (row col : Int) :
    List Entry × List Move :=
  let pinInfo := findPinFromBack pins row col
  let piecePinned := pinInfo.isSome
  let pinDirection : Int × Int :=
    match pinInfo with
    | some p => (p.2.2.1, p.2.2.2)
    | none => (0, 0)
  let pins1 :=
    match pinInfo with
    | some p => pins.erase p
    | none => pins
  let moves :=
    if whiteToMove then
      (if atB bd (row - 1) col = empSq then
        if ¬piecePinned ∨ pinDirection = (-1, 0) then
          mkMove (row, col) (row - 1, col) bd ::
            (if row = 6 ∧ atB bd (row - 2) col = empSq then
              [mkMove (row, col) (row - 2, col) bd]
            else [])
        else []
      else []) ++
      (if col - 1 ≥ 0 then
        if (atB bd (row - 1) (col - 1)).1 = CChar.cb then
          if ¬piecePinned ∨ pinDirection = (-1, -1) then
            [mkMove (row, col) (row - 1, col - 1) bd]
          else []
        else []
      else []) ++
      (if col + 1 ≤ 7 then
        if (atB bd (row - 1) (col + 1)).1 = CChar.cb then
          if ¬piecePinned ∨ pinDirection = (-1, 1) then
            [mkMove (row, col) (row - 1, col + 1) bd]
          else []
        else []
      else [])
    else
      (if atB bd (row + 1) col = empSq then
        if ¬piecePinned ∨ pinDirection = (1, 0) then
          mkMove (row, col) (row + 1, col) bd ::
            (if row = 1 ∧ atB bd (row + 2) col = empSq then
              [mkMove (row, col) (row + 2, col) bd]
            else [])
        else []
      else []) ++
      (if col - 1 ≥ 0 then
        if (atB bd (row + 1) (col - 1)).1 = CChar.cw then
          if ¬piecePinned ∨ pinDirection = (1, -1) then
            [mkMove (row, col) (row + 1, col - 1) bd]
          else []
        else []
      else []) ++
      (if col + 1 ≤ 7 then
        if (atB bd (row + 1) (col + 1)).1 = CChar.cw then
          if ¬piecePinned ∨ pinDirection = (1, 1) then
            [mkMove (row, col) (row + 1, col + 1) bd]
          else []
        else []
      else [])
  (pins1, moves)

/-- The sliding inner loop shared by `getRookMoves` and `getBishopMoves`:
walk one direction up to 7 steps.  When the piece is pinned off this
direction the source records nothing but does NOT break, so the loop just
runs the ray to its end producing no moves. -/
def slideRay (bd : Board) (enemyColor : CChar) (piecePinned : Bool)
    (pinDirection : Int × Int) (row col : Int) (d : Int × Int) :
    Nat → Int → List Move
  | 0, _ => []
  | fuel + 1, i =>
    let endRow := row + d.1 * i
    let endCol := col + d.2 * i
    if 0 ≤ endRow ∧ endRow ≤ 7 ∧ 0 ≤ endCol ∧ endCol ≤ 7 then
      if ¬piecePinned ∨ pinDirection = d ∨ pinDirection = (-d.1, -d.2) then
        let endPiece := atB bd endRow endCol
        if endPiece = empSq then
          mkMove (row, col) (endRow, endCol) bd ::
            slideRay bd enemyColor piecePinned pinDirection row col d fuel (i + 1)
        else if endPiece.1 = enemyColor then
          [mkMove (row, col) (endRow, endCol) bd]
        else []
      else slideRay bd enemyColor piecePinned pinDirection row col d fuel (i + 1)
    else []

/-- `GameState.getRookMoves`.  The pin entry is removed from `self.pins`
only when the piece on `(row, col)` is not a queen (the source comment:
"can't remove queen from pin on rook moves, only remove it on bishop
moves"). -/
def getRookMoves (bd : Board) (whiteToMove : Bool) (pins : List Entry) (row col : Int) :
    List Entry × List Move :=
  let pinInfo := findPinFromBack pins row col
  let piecePinned := pinInfo.isSome
  let pinDirection : Int × Int :=
    match pinInfo with
    | some p => (p.2.2.1, p.2.2.2)
    | none => (0, 0)
  let pins1 :=
    match pinInfo with
    | some p => if (atB bd row col).2 ≠ TChar.tQ then pins.erase p else pins
    | none => pins
  let enemyColor := if whiteToMove then CChar.cb else CChar.cw
  let moves := [((-1 : Int), (0 : Int)), (0, -1), (1, 0), (0, 1)].foldl
    (fun acc d => acc ++ slideRay bd enemyColor piecePinned pinDirection row col d 7 1) []
  (pins1, moves)

/-- `GameState.getKnightMoves`. -/
def getKnightMoves (bd : Board) (whiteToMove : Bool) (pins : List Entry) (row col : Int) :
    List Entry × List Move :=
  let pinInfo := findPinFromBack pins row col
  let piecePinned := pinInfo.isSome
  let pins1 :=
    match pinInfo with
    | some p => pins.erase p
    | none => pins
  let allyColor := if whiteToMove then CChar.cw else CChar.cb
  let moves := [((-2 : Int), (-1 : Int)), (-2, 1), (-1, 2), (1, 2), (2, -1), (2, 1),
      (-1, -2), (1, -2)].foldl
    (fun acc m =>
      let endRow := row + m.1
      let endCol := col + m.2
      if 0 ≤ endRow ∧ endRow ≤ 7 ∧ 0 ≤ endCol ∧ endCol ≤ 7 then
        if ¬piecePinned then
          if (atB bd endRow endCol).1 ≠ allyColor then
            acc ++ [mkMove (row, col) (endRow, endCol) bd]
          else acc
        else acc
      else acc)
    []
  (pins1, moves)

/-- `GameState.getBishopMoves`.  Unlike `getRookMoves`, the pin entry is
removed unconditionally — also for a queen. -/
def getBishopMoves (bd : Board) (whiteToMove : Bool) (pins : List Entry) (row col : Int) :
    List Entry × List Move :=
  let pinInfo := findPinFromBack pins row col
  let piecePinned := pinInfo.isSome
  let pinDirection : Int × Int :=
    match pinInfo with
    | some p => (p.2.2.1, p.2.2.2)
    | none => (0, 0)
  let pins1 :=
    match pinInfo with
    | some p => pins.erase p
    | none => pins
  let enemyColor := if whiteToMove then CChar.cb else CChar.cw
  let moves := [((-1 : Int), (-1 : Int)), (-1, 1), (1, 1), (1, -1)].foldl
    (fun acc d => acc ++ slideRay bd enemyColor piecePinned pinDirection row col d 7 1) []
  (pins1, moves)

/-- `GameState.getQueenMoves`: bishop moves first, then rook moves, the
pins list threaded through both. -/
def getQueenMoves (bd : Board) (whiteToMove : Bool) (pins : List Entry) (row col : Int) :
    List Entry × List Move :=
  let b := getBishopMoves bd whiteToMove pins row col
  let r := getRookMoves bd whiteToMove b.1 row col
  (r.1, b.2 ++ r.2)

/-- The offsets actually used by `GameState.getKingMoves`: `row_moves` and
`col_moves` are 9-tuples but the loop is `for i in range(8)`, so only the
first eight pairs are tried — including the null step `(0, 0)` (harmless:
the king's own square is an ally square) and MISSING `(1, 1)`. -/
def kingOffsets : List (Int × Int) :=
  [(-1, -1), (-1, 0), (-1, 1), (0, -1), (0, 0), (0, 1), (1, -1), (1, 0)]

/-- The loop body of `GameState.getKingMoves` for one candidate offset: the
source temporarily sets the ally king-location attribute to the candidate
destination, runs `checkForPinsAndChecks` (on the UNCHANGED board — the
king still stands on `(row, col)`), and restores the attribute to
`(row, col)`; the accumulator carries both king locations and the moves. -/
def getKingMovesStep (bd : Board) (whiteToMove : Bool) (row col : Int)
    (acc : (Int × Int) × (Int × Int) × List Move) (m : Int × Int) :
    (Int × Int) × (Int × Int) × List Move :=
  let allyColor := if whiteToMove then CChar.cw else CChar.cb
  let endRow := row + m.1
  let endCol := col + m.2
  if 0 ≤ endRow ∧ endRow ≤ 7 ∧ 0 ≤ endCol ∧ endCol ≤ 7 then
    let endPiece := atB bd endRow endCol
    if endPiece.1 ≠ allyColor then
      let w1 := if allyColor = CChar.cw then (endRow, endCol) else acc.1
      let b1 := if allyColor = CChar.cw then acc.2.1 else (endRow, endCol)
      let start := if whiteToMove then w1 else b1
      let scan := checkForPinsAndChecksAt bd whiteToMove start.1 start.2
      let ms := if ¬scan.1 then acc.2.2 ++ [mkMove (row, col) (endRow, endCol) bd]
        else acc.2.2
      let w2 := if allyColor = CChar.cw then (row, col) else w1
      let b2 := if allyColor = CChar.cw then b1 else (row, col)
      (w2, b2, ms)
    else acc
  else acc

/-- `GameState.getKingMoves`: the `for i in range(8)` loop over the first
eight offset pairs. -/
def getKingMoves (bd : Board) (whiteToMove : Bool) (wKL bKL : Int × Int) (row col : Int) :
    (Int × Int) × (Int × Int) × List Move :=
  kingOffsets.foldl (getKingMovesStep bd whiteToMove row col) (wKL, bKL, [])

/-- Accumulator threaded through the board sweep of `getAllPossibleMoves`:
the mutable `self.pins`, the two king-location attributes (mutated and
restored by `getKingMoves`), and the growing move list. -/
structure SweepAcc where
  pins : List Entry
  wKL : Int × Int
  bKL : Int × Int
  moves : List Move
deriving Repr

/-- The `self.moveFunctions` dispatch on the piece-type character.  A square
whose type character is `'-'` while its color is `'w'`/`'b'` would be a
`KeyError` in Python; it cannot occur and is a no-op here. -/
def pieceDispatch (bd : Board) (whiteToMove : Bool) (acc : SweepAcc) (r c : Int)
    (t : TChar) : SweepAcc :=
  match t with
  | TChar.tp =>
    let o := getPawnMoves bd whiteToMove acc.pins r c
    { acc with pins := o.1, moves := acc.moves ++ o.2 }
  | TChar.tR =>
    let o := getRookMoves bd whiteToMove acc.pins r c
    { acc with pins := o.1, moves := acc.moves ++ o.2 }
  | TChar.tN =>
    let o := getKnightMoves bd whiteToMove acc.pins r c
    { acc with pins := o.1, moves := acc.moves ++ o.2 }
  | TChar.tB =>
    let o := getBishopMoves bd whiteToMove acc.pins r c
    { acc with pins := o.1, moves := acc.moves ++ o.2 }
  | TChar.tQ =>
    let o := getQueenMoves bd whiteToMove acc.pins r c
    { acc with pins := o.1, moves := acc.moves ++ o.2 }
  | TChar.tK =>
    let o := getKingMoves bd whiteToMove acc.wKL acc.bKL r c
    { acc with wKL := o.1, bKL := o.2.1, moves := acc.moves ++ o.2.2 }
  | TChar.td => acc

/-- The body of the double loop of `GameState.getAllPossibleMoves` at one
square. -/
def sweepSquare (bd : Board) (whiteToMove : Bool) (acc : SweepAcc) (r c : Int) : SweepAcc :=
  let piece := atB bd r c
  if piece ≠ empSq then
    if (piece.1 = CChar.cw ∧ whiteToMove) ∨ (piece.1 = CChar.cb ∧ ¬whiteToMove) then
      pieceDispatch bd whiteToMove acc r c piece.2
    else acc
  else acc

/-- The row/column indices `range(8)` of the board sweep. -/
def boardIndices : List Int :=
  (List.range 8).map (fun n => (n : Int))

/-- `GameState.getAllPossibleMoves`: sweep all 64 squares in row-major
order, threading `self.pins` and the king-location attributes. -/
def getAllPossibleMoves (bd : Board) (whiteToMove : Bool) (pins : List Entry)
    (wKL bKL : Int × Int) : SweepAcc :=
  boardIndices.foldl
    (fun acc r => boardIndices.foldl (fun a c => sweepSquare bd whiteToMove a r c) acc)
    ⟨pins, wKL, bKL, []⟩

theorem mem_boardIndices (r : Int) (h : r ∈ boardIndices) : 0 ≤ r ∧ r ≤ 7 := by
  have he : boardIndices = [0, 1, 2, 3, 4, 5, 6, 7] := rfl
  rw [he] at h
  simp only [List.mem_cons, List.not_mem_nil, or_false] at h
  rcases h with rfl | rfl | rfl | rfl | rfl | rfl | rfl | rfl <;> exact ⟨by omega, by omega⟩

/-- The `validSquares` loop of the single-check branch of `getValidMoves`:
append `king + direction * i` for `i = 1, 2, ...` and stop once the
checking piece's square has been appended. -/
def buildValidSquares (kingRow kingCol dirRow dirCol checkRow checkCol : Int) :
    Nat → Int → List (Int × Int)
  | 0, _ => []
  | fuel + 1, i =>
    let v := (kingRow + dirRow * i, kingCol + dirCol * i)
    if v.1 = checkRow ∧ v.2 = checkCol then [v]
    else v :: buildValidSquares kingRow kingCol dirRow dirCol checkRow checkCol fuel (i + 1)

/-- `GameState.getValidMoves`.  Returns the updated state (the source
mutates `self.inCheck`, `self.pins`, `self.checks`, and — via the
generators — consumes pin entries and touches the king-location attributes)
together with the move list.

The single-check branch's backwards removal loop is modelled as a filter:
all generated moves have pairwise distinct `moveID`s (distinct pieces have
distinct start squares and each generator emits distinct destinations), so
`moves.remove(moves[i])`, which deletes the first element `__eq__`-equal to
`moves[i]`, deletes exactly the element at index `i`, and the backwards
sweep keeps precisely the moves that are king moves or end on a valid
square. -/
def getValidMoves (s : GameState) : GameState × List Move :=
  let scan := checkForPinsAndChecks s
  let s1 := { s with inCheck := scan.1, pins := scan.2.1, checks := scan.2.2 }
  let king := if s1.whiteToMove then s1.whiteKingLocation else s1.blackKingLocation
  if s1.inCheck then
    if s1.checks.length = 1 then
      let a := getAllPossibleMoves s1.board s1.whiteToMove s1.pins s1.whiteKingLocation
        s1.blackKingLocation
      let check := s1.checks.headI
      let checkRow := check.1
      let checkCol := check.2.1
      let pieceChecking := atB s1.board checkRow checkCol
      let validSquares :=
        if pieceChecking.2 = TChar.tN then [(checkRow, checkCol)]
        else buildValidSquares king.1 king.2 check.2.2.1 check.2.2.2 checkRow checkCol 7 1
      let moves := a.moves.filter
        (fun m => m.pieceMoved.2 = TChar.tK ∨ (m.endRow, m.endCol) ∈ validSquares)
      ({ s1 with pins := a.pins, whiteKingLocation := a.wKL, blackKingLocation := a.bKL },
        moves)
    else
      let o := getKingMoves s1.board s1.whiteToMove s1.whiteKingLocation s1.blackKingLocation
        king.1 king.2
      ({ s1 with whiteKingLocation := o.1, blackKingLocation := o.2.1 }, o.2.2)
  else
    let a := getAllPossibleMoves s1.board s1.whiteToMove s1.pins s1.whiteKingLocation
      s1.blackKingLocation
    ({ s1 with pins := a.pins, whiteKingLocation := a.wKL, blackKingLocation := a.bKL },
      a.moves)

/-! ### Game-trace helpers

The presentation loop (`ChessMain.py`) constructs a `Move` from two clicked
squares and the live board, matches it against `getValidMoves()`, and
applies it with `makeMove`.  These helpers replay a list of coordinate
pairs that way, and record whether every replayed move was a member of the
engine's valid-move list at its position. -/

/-- Apply a list of `(startSq, endSq)` coordinate pairs from `s`, each via
`Move(startSq, endSq, board)` on the current board followed by `makeMove`. -/
def applyCoordMoves (s : GameState) (l : List ((Int × Int) × (Int × Int))) : GameState :=
  l.foldl (fun t mv => makeMove t (mkMove mv.1 mv.2 t.board)) s

/-- `true` iff every move of the replay is returned by `getValidMoves` at
the position it is applied to. -/
def coordMovesValid (s : GameState) (l : List ((Int × Int) × (Int × Int))) : Bool :=
  (l.foldl
    (fun (acc : GameState × Bool) mv =>
      (makeMove acc.1 (mkMove mv.1 mv.2 acc.1.board),
        acc.2 && (getValidMoves acc.1).2.contains (mkMove mv.1 mv.2 acc.1.board)))
    (s, true)).2

/-! ### Well-formedness predicates -/

/-- The board is an 8×8 grid (as the source's `self.board` always is). -/
def boardOK (bd : Board) : Prop :=
  bd.length = 8 ∧ ∀ row ∈ bd, row.length = 8

/-- The invariant of claim C7, read off the spec's "must always equal the
actual king's board location": every square holding `"wK"` is the cached
white king location, and likewise for `"bK"`. -/
def kingCachesAccurate (s : GameState) : Prop :=
  (∀ r c : Fin 8, atB s.board r c = (CChar.cw, TChar.tK) →
    ((r : Int), (c : Int)) = s.whiteKingLocation) ∧
  (∀ r c : Fin 8, atB s.board r c = (CChar.cb, TChar.tK) →
    ((r : Int), (c : Int)) = s.blackKingLocation)

instance (s : GameState) : Decidable (kingCachesAccurate s) := by
  unfold kingCachesAccurate; infer_instance

/-- Both cached king locations are board coordinates. -/
def cachesInRange (s : GameState) : Prop :=
  0 ≤ s.whiteKingLocation.1 ∧ s.whiteKingLocation.1 ≤ 7 ∧
  0 ≤ s.whiteKingLocation.2 ∧ s.whiteKingLocation.2 ≤ 7 ∧
  0 ≤ s.blackKingLocation.1 ∧ s.blackKingLocation.1 ≤ 7 ∧
  0 ≤ s.blackKingLocation.2 ∧ s.blackKingLocation.2 ≤ 7

instance (s : GameState) : Decidable (cachesInRange s) := by
  unfold cachesInRange; infer_instance

/-- No white pawn on row 0 and no black pawn on row 7 (`makeMove`
auto-promotes, so play never produces one; `getPawnMoves` indexes
`board[row - 1]` /​ `board[row + 1]` unguarded and relies on this). -/
def pawnsOK (bd : Board) : Prop :=
  (∀ c : Fin 8, atB bd 0 (c : Int) ≠ (CChar.cw, TChar.tp)) ∧
  (∀ c : Fin 8, atB bd 7 (c : Int) ≠ (CChar.cb, TChar.tp))

instance (bd : Board) : Decidable (pawnsOK bd) := by
  unfold pawnsOK; infer_instance

/-- A move is structurally consistent with a board: its coordinates are
board coordinates and all derived fields are what `Move.__init__` computes
from that board — exactly the moves the engine itself constructs. -/
def MoveOK (bd : Board) (m : Move) : Prop :=
  0 ≤ m.startRow ∧ m.startRow ≤ 7 ∧ 0 ≤ m.startCol ∧ m.startCol ≤ 7 ∧
  0 ≤ m.endRow ∧ m.endRow ≤ 7 ∧ 0 ≤ m.endCol ∧ m.endCol ≤ 7 ∧
  m = mkMove (m.startRow, m.startCol) (m.endRow, m.endCol) bd

instance (bd : Board) (m : Move) : Decidable (MoveOK bd m) := by
  unfold MoveOK; infer_instance

/-- Pointwise equality of two boards on all 64 squares. -/
def boardAgrees (a b : Board) : Prop :=
  ∀ r c : Fin 8, atB a (r : Int) (c : Int) = atB b (r : Int) (c : Int)

instance (a b : Board) : Decidable (boardAgrees a b) := by
  unfold boardAgrees; infer_instance

/-- The restoration property of claim C3: same 64 board squares, same
side-to-move flag, same king-square caches. -/
def restoresTo (s t : GameState) : Prop :=
  boardAgrees s.board t.board ∧ s.whiteToMove = t.whiteToMove ∧
  s.whiteKingLocation = t.whiteKingLocation ∧ s.blackKingLocation = t.blackKingLocation

instance (s t : GameState) : Decidable (restoresTo s t) := by
  unfold restoresTo; infer_instance

/-! ### Indexing lemmas -/

theorem pyIdx_natCast (l : List α) (d : α) (n : Nat) : pyIdx l d (n : Int) = l.getD n d := by
  simp [pyIdx]

theorem pyIdx_nonneg (l : List α) (d : α) (i : Int) (h : 0 ≤ i) :
    pyIdx l d i = l.getD i.toNat d := by
  simp [pyIdx, h]

theorem pySet_nonneg (l : List α) (i : Int) (x : α) (h : 0 ≤ i) :
    pySet l i x = l.set i.toNat x := by
  simp [pySet, h]

theorem getD_set_self (l : List α) (n : Nat) (x d : α) (h : n < l.length) :
    (l.set n x).getD n d = x := by
  simp [List.getD_eq_getElem?_getD, List.getElem?_set_self h]

theorem getD_set_ne (l : List α) (m n : Nat) (x d : α) (h : m ≠ n) :
    (l.set m x).getD n d = l.getD n d := by
  simp [List.getD_eq_getElem?_getD, List.getElem?_set_ne h]

theorem set_getD_self (l : List α) (n : Nat) (d : α) (h : n < l.length) :
    l.set n (l.getD n d) = l := by
  apply List.ext_getElem <;> simp
  intro i h1 h2
  rcases eq_or_ne i n with rfl | hne
  · simp [List.getElem_set_self, List.getElem?_eq_getElem h1]
  · simp [List.getElem_set_ne (Ne.symm hne)]

theorem boardOK_row (bd : Board) (hb : boardOK bd) (n : Nat) (hn : n < 8) :
    (bd.getD n []).length = 8 := by
  have h8 := hb.1
  have hlen : n < bd.length := by omega
  rw [List.getD_eq_getElem bd [] hlen]
  exact hb.2 _ (List.getElem_mem _)

theorem atB_eq_getD (bd : Board) (r c : Int) (hr : 0 ≤ r) (hc : 0 ≤ c) :
    atB bd r c = (bd.getD r.toNat []).getD c.toNat empSq := by
  rw [atB, pyIdx_nonneg _ _ _ hr, pyIdx_nonneg _ _ _ hc]

theorem setB_eq_set (bd : Board) (r c : Int) (x : Square) (hr : 0 ≤ r) (hc : 0 ≤ c) :
    setB bd r c x = bd.set r.toNat ((bd.getD r.toNat []).set c.toNat x) := by
  rw [setB, pySet_nonneg _ _ _ hr, pyIdx_nonneg _ _ _ hr, pySet_nonneg _ _ _ hc]

theorem boardOK_setB (bd : Board) (r c : Int) (x : Square) (hb : boardOK bd)
    (hr0 : 0 ≤ r) (hr7 : r ≤ 7) (hc0 : 0 ≤ c) :
    boardOK (setB bd r c x) := by
  rw [setB_eq_set bd r c x hr0 hc0]
  refine ⟨by simpa using hb.1, ?_⟩
  intro row hrow
  rcases List.mem_or_eq_of_mem_set hrow with h | h
  · exact hb.2 _ h
  · subst h
    simpa using boardOK_row bd hb r.toNat (by omega)

theorem atB_setB_self (bd : Board) (r c : Int) (x : Square) (hb : boardOK bd)
    (hr0 : 0 ≤ r) (hr7 : r ≤ 7) (hc0 : 0 ≤ c) (hc7 : c ≤ 7) :
    atB (setB bd r c x) r c = x := by
  have h8 := hb.1
  have hrn : r.toNat < bd.length := by omega
  have hcn : c.toNat < (bd.getD r.toNat []).length := by
    rw [boardOK_row bd hb r.toNat (by omega)]; omega
  rw [setB_eq_set bd r c x hr0 hc0, atB_eq_getD _ r c hr0 hc0,
    getD_set_self _ _ _ _ (by simpa using hrn), getD_set_self _ _ _ _ hcn]

theorem atB_setB_ne (bd : Board) (r c r' c' : Int) (x : Square) (hb : boardOK bd)
    (hr0 : 0 ≤ r) (hr7 : r ≤ 7) (hc0 : 0 ≤ c) (hc7 : c ≤ 7)
    (hr0' : 0 ≤ r') (hc0' : 0 ≤ c')
    (hne : ¬(r' = r ∧ c' = c)) :
    atB (setB bd r c x) r' c' = atB bd r' c' := by
  rw [setB_eq_set bd r c x hr0 hc0, atB_eq_getD _ r' c' hr0' hc0',
    atB_eq_getD bd r' c' hr0' hc0']
  rcases eq_or_ne r'.toNat r.toNat with heq | hrne
  · have h8 := hb.1
    have hrr : r' = r := by omega
    have hcc : c'.toNat ≠ c.toNat := by omega
    have hrn : r.toNat < bd.length := by omega
    rw [heq, getD_set_self _ _ _ _ (by simpa using hrn), getD_set_ne _ _ _ _ _ (Ne.symm hcc)]
  · rw [getD_set_ne _ _ _ _ _ (Ne.symm hrne)]

theorem setB_atB_self (bd : Board) (r c : Int) (hb : boardOK bd)
    (hr0 : 0 ≤ r) (hr7 : r ≤ 7) (hc0 : 0 ≤ c) (hc7 : c ≤ 7) :
    setB bd r c (atB bd r c) = bd := by
  have h8 := hb.1
  have hrn : r.toNat < bd.length := by omega
  have hcn : c.toNat < (bd.getD r.toNat []).length := by
    rw [boardOK_row bd hb r.toNat (by omega)]; omega
  rw [setB_eq_set bd r c _ hr0 hc0, atB_eq_getD bd r c hr0 hc0,
    set_getD_self _ _ _ hcn, set_getD_self _ _ _ hrn]

/-- Two well-formed boards that agree on all 64 squares are equal. -/
theorem boardExt (a b : Board) (ha : boardOK a) (hb : boardOK b)
    (h : boardAgrees a b) : a = b := by
  apply List.ext_getElem
  · rw [ha.1, hb.1]
  · intro i h1 h2
    have ha8 := ha.1
    have hi8 : i < 8 := by omega
    apply List.ext_getElem
    · have := ha.2 _ (List.getElem_mem h1)
      have := hb.2 _ (List.getElem_mem h2)
      omega
    · intro j j1 j2
      have hj8 : j < 8 := by
        have := ha.2 _ (List.getElem_mem h1)
        omega
      have key : atB a (i : Int) (j : Int) = atB b (i : Int) (j : Int) := h ⟨i, hi8⟩ ⟨j, hj8⟩
      rw [atB_eq_getD a _ _ (Int.natCast_nonneg i) (Int.natCast_nonneg j),
        atB_eq_getD b _ _ (Int.natCast_nonneg i) (Int.natCast_nonneg j)] at key
      simp only [Int.toNat_natCast] at key
      rw [List.getD_eq_getElem a [] h1, List.getD_eq_getElem b [] h2,
        List.getD_eq_getElem _ empSq j1, List.getD_eq_getElem _ empSq j2] at key
      exact key

/-! ### Structural facts about `mkMove`, `makeMove`, `undoMove` -/

theorem mkMove_pieceMoved (a b : Int × Int) (bd : Board) :
    (mkMove a b bd).pieceMoved = atB bd a.1 a.2 := rfl

theorem mkMove_pieceCaptured (a b : Int × Int) (bd : Board) :
    (mkMove a b bd).pieceCaptured = atB bd b.1 b.2 := rfl

theorem moveOK_pieceMoved (bd : Board) (m : Move) (hm : MoveOK bd m) :
    m.pieceMoved = atB bd m.startRow m.startCol := by
  conv_lhs => rw [hm.2.2.2.2.2.2.2.2]
  rfl

theorem moveOK_pieceCaptured (bd : Board) (m : Move) (hm : MoveOK bd m) :
    m.pieceCaptured = atB bd m.endRow m.endCol := by
  conv_lhs => rw [hm.2.2.2.2.2.2.2.2]
  rfl

theorem moveOK_promotion (bd : Board) (m : Move) (hm : MoveOK bd m) :
    m.isPawnPromotion = decide ((m.pieceMoved = (CChar.cw, TChar.tp) ∧ m.endRow = 0) ∨
      (m.pieceMoved = (CChar.cb, TChar.tp) ∧ m.endRow = 7)) := by
  conv_lhs => rw [hm.2.2.2.2.2.2.2.2]
  rw [moveOK_pieceMoved bd m hm]
  rfl

theorem kingInvW_int (s : GameState) (hk : kingCachesAccurate s) (r c : Int)
    (hr0 : 0 ≤ r) (hr7 : r ≤ 7) (hc0 : 0 ≤ c) (hc7 : c ≤ 7)
    (hw : atB s.board r c = (CChar.cw, TChar.tK)) : (r, c) = s.whiteKingLocation := by
  have hr : ((r.toNat : Nat) : Int) = r := Int.toNat_of_nonneg hr0
  have hc : ((c.toNat : Nat) : Int) = c := Int.toNat_of_nonneg hc0
  have h1 : atB s.board ((r.toNat : Nat) : Int) ((c.toNat : Nat) : Int) = (CChar.cw, TChar.tK) := by
    rw [hr, hc]; exact hw
  have h2 := hk.1 ⟨r.toNat, by omega⟩ ⟨c.toNat, by omega⟩ h1
  rw [hr, hc] at h2
  exact h2

theorem kingInvB_int (s : GameState) (hk : kingCachesAccurate s) (r c : Int)
    (hr0 : 0 ≤ r) (hr7 : r ≤ 7) (hc0 : 0 ≤ c) (hc7 : c ≤ 7)
    (hw : atB s.board r c = (CChar.cb, TChar.tK)) : (r, c) = s.blackKingLocation := by
  have hr : ((r.toNat : Nat) : Int) = r := Int.toNat_of_nonneg hr0
  have hc : ((c.toNat : Nat) : Int) = c := Int.toNat_of_nonneg hc0
  have h1 : atB s.board ((r.toNat : Nat) : Int) ((c.toNat : Nat) : Int) = (CChar.cb, TChar.tK) := by
    rw [hr, hc]; exact hw
  have h2 := hk.2 ⟨r.toNat, by omega⟩ ⟨c.toNat, by omega⟩ h1
  rw [hr, hc] at h2
  exact h2

theorem makeMove_boardOK (s : GameState) (m : Move) (hb : boardOK s.board)
    (hm : MoveOK s.board m) : boardOK (makeMove s m).board := by
  obtain ⟨hsr0, hsr7, hsc0, hsc7, her0, her7, hec0, hec7, _⟩ := id hm
  show boardOK (if m.isPawnPromotion then _ else _)
  have h1 := boardOK_setB s.board m.startRow m.startCol empSq hb hsr0 hsr7 hsc0
  have h2 := boardOK_setB _ m.endRow m.endCol m.pieceMoved h1 her0 her7 hec0
  split
  · exact boardOK_setB _ m.endRow m.endCol _ h2 her0 her7 hec0
  · exact h2

/-- `undoMove` exactly reverses `makeMove` for a move consistent with the
board, in a state whose king caches are accurate: the entire state is
restored, board, side to move, move log and king caches included. -/
theorem undo_makeMove (s : GameState) (m : Move) (hb : boardOK s.board)
    (hk : kingCachesAccurate s) (hm : MoveOK s.board m) :
    undoMove (makeMove s m) = s := by
  obtain ⟨hsr0, hsr7, hsc0, hsc7, her0, her7, hec0, hec7, _⟩ := id hm
  have hpm := moveOK_pieceMoved s.board m hm
  have hpc := moveOK_pieceCaptured s.board m hm
  have hexp : undoMove (makeMove s m) = { makeMove s m with
      board := setB (setB (makeMove s m).board m.startRow m.startCol m.pieceMoved)
        m.endRow m.endCol m.pieceCaptured
      moveLog := s.moveLog
      whiteToMove := !(makeMove s m).whiteToMove
      whiteKingLocation :=
        if m.pieceMoved = (CChar.cw, TChar.tK) then (m.startRow, m.startCol)
        else (makeMove s m).whiteKingLocation
      blackKingLocation :=
        if m.pieceMoved = (CChar.cb, TChar.tK) then (m.startRow, m.startCol)
        else (makeMove s m).blackKingLocation } := rfl
  rw [hexp]
  have hBOK : boardOK (makeMove s m).board := makeMove_boardOK s m hb hm
  have hb1 := boardOK_setB s.board m.startRow m.startCol empSq hb hsr0 hsr7 hsc0
  have hb2 := boardOK_setB _ m.endRow m.endCol m.pieceMoved hb1 her0 her7 hec0
  have hBS : boardOK (setB (makeMove s m).board m.startRow m.startCol m.pieceMoved) :=
    boardOK_setB _ m.startRow m.startCol _ hBOK hsr0 hsr7 hsc0
  ext : 1
  · -- board
    apply boardExt _ _ (boardOK_setB _ m.endRow m.endCol _ hBS her0 her7 hec0) hb
    intro r c
    have hri : (0 : Int) ≤ (r : Int) ∧ ((r : Int) : Int) ≤ 7 := by
      constructor <;> [positivity; exact_mod_cast Nat.le_of_lt_succ r.isLt]
    have hci : (0 : Int) ≤ (c : Int) ∧ ((c : Int) : Int) ≤ 7 := by
      constructor <;> [positivity; exact_mod_cast Nat.le_of_lt_succ c.isLt]
    by_cases h1 : ((r : Int), (c : Int)) = (m.endRow, m.endCol)
    · rw [Prod.mk.injEq] at h1
      rw [h1.1, h1.2, atB_setB_self _ _ _ _ hBS her0 her7 hec0 hec7, hpc]
    · rw [Prod.mk.injEq] at h1
      rw [atB_setB_ne _ _ _ _ _ _ hBS her0 her7 hec0 hec7 hri.1 hci.1 h1]
      by_cases h2 : ((r : Int), (c : Int)) = (m.startRow, m.startCol)
      · rw [Prod.mk.injEq] at h2
        rw [h2.1, h2.2, atB_setB_self _ _ _ _ hBOK hsr0 hsr7 hsc0 hsc7, hpm]
      · rw [Prod.mk.injEq] at h2
        rw [atB_setB_ne _ _ _ _ _ _ hBOK hsr0 hsr7 hsc0 hsc7 hri.1 hci.1 h2]
        show atB (if m.isPawnPromotion then _ else _) _ _ = _
        split
        · rw [atB_setB_ne _ _ _ _ _ _ hb2 her0 her7 hec0 hec7 hri.1 hci.1 h1,
            atB_setB_ne _ _ _ _ _ _ hb1 her0 her7 hec0 hec7 hri.1 hci.1 h1,
            atB_setB_ne _ _ _ _ _ _ hb hsr0 hsr7 hsc0 hsc7 hri.1 hci.1 h2]
        · rw [atB_setB_ne _ _ _ _ _ _ hb1 her0 her7 hec0 hec7 hri.1 hci.1 h1,
            atB_setB_ne _ _ _ _ _ _ hb hsr0 hsr7 hsc0 hsc7 hri.1 hci.1 h2]
  · -- whiteToMove
    show (!!s.whiteToMove) = s.whiteToMove
    exact Bool.not_not s.whiteToMove
  · -- moveLog
    rfl
  · -- whiteKingLocation
    show (if m.pieceMoved = (CChar.cw, TChar.tK) then (m.startRow, m.startCol)
      else (makeMove s m).whiteKingLocation) = s.whiteKingLocation
    by_cases hW : m.pieceMoved = (CChar.cw, TChar.tK)
    · rw [if_pos hW]
      exact kingInvW_int s hk _ _ hsr0 hsr7 hsc0 hsc7 (hpm ▸ hW)
    · rw [if_neg hW]
      show (if m.pieceMoved = (CChar.cw, TChar.tK) then _ else s.whiteKingLocation) = _
      rw [if_neg hW]
  · -- blackKingLocation
    show (if m.pieceMoved = (CChar.cb, TChar.tK) then (m.startRow, m.startCol)
      else (makeMove s m).blackKingLocation) = s.blackKingLocation
    by_cases hB : m.pieceMoved = (CChar.cb, TChar.tK)
    · rw [if_pos hB]
      exact kingInvB_int s hk _ _ hsr0 hsr7 hsc0 hsc7 (hpm ▸ hB)
    · rw [if_neg hB]
      show (if m.pieceMoved = (CChar.cb, TChar.tK) then _ else s.blackKingLocation) = _
      rw [if_neg hB]
  · rfl
  · rfl
  · rfl
  · rfl
  · rfl

/-- The value of a square after `makeMove`: the end square holds the moved
(or promoted) piece, the start square (when distinct) is cleared, all other
squares are untouched. -/
theorem makeMove_atB (s : GameState) (m : Move) (hb : boardOK s.board)
    (hm : MoveOK s.board m) (r c : Int)
    (hr0 : 0 ≤ r) (hr7 : r ≤ 7) (hc0 : 0 ≤ c) (hc7 : c ≤ 7) :
    atB (makeMove s m).board r c =
      if r = m.endRow ∧ c = m.endCol then
        (if m.isPawnPromotion then (m.pieceMoved.1, TChar.tQ) else m.pieceMoved)
      else if r = m.startRow ∧ c = m.startCol then empSq
      else atB s.board r c := by
  obtain ⟨hsr0, hsr7, hsc0, hsc7, her0, her7, hec0, hec7, _⟩ := id hm
  have hb1 := boardOK_setB s.board m.startRow m.startCol empSq hb hsr0 hsr7 hsc0
  have hb2 := boardOK_setB _ m.endRow m.endCol m.pieceMoved hb1 her0 her7 hec0
  show atB (if m.isPawnPromotion then _ else _) _ _ = _
  by_cases h1 : r = m.endRow ∧ c = m.endCol
  · rw [if_pos h1]
    split
    · rw [h1.1, h1.2, atB_setB_self _ _ _ _ hb2 her0 her7 hec0 hec7]
    · rw [h1.1, h1.2, atB_setB_self _ _ _ _ hb1 her0 her7 hec0 hec7]
  · rw [if_neg h1]
    have step2 : atB (setB (setB s.board m.startRow m.startCol empSq) m.endRow m.endCol
        m.pieceMoved) r c = atB (setB s.board m.startRow m.startCol empSq) r c :=
      atB_setB_ne _ _ _ _ _ _ hb1 her0 her7 hec0 hec7 hr0 hc0 h1
    by_cases h2 : r = m.startRow ∧ c = m.startCol
    · rw [if_pos h2]
      split
      · rw [atB_setB_ne _ _ _ _ _ _ hb2 her0 her7 hec0 hec7 hr0 hc0 h1, step2,
          h2.1, h2.2, atB_setB_self _ _ _ _ hb hsr0 hsr7 hsc0 hsc7]
      · rw [step2, h2.1, h2.2, atB_setB_self _ _ _ _ hb hsr0 hsr7 hsc0 hsc7]
    · rw [if_neg h2]
      have step1 : atB (setB s.board m.startRow m.startCol empSq) r c = atB s.board r c :=
        atB_setB_ne _ _ _ _ _ _ hb hsr0 hsr7 hsc0 hsc7 hr0 hc0 h2
      split
      · rw [atB_setB_ne _ _ _ _ _ _ hb2 her0 her7 hec0 hec7 hr0 hc0 h1, step2, step1]
      · rw [step2, step1]

/-- The well-formedness invariant maintained by play: an 8×8 board, in-range
king caches that are accurate, and no unpromoted pawn on a back rank. -/
def StateInv (s : GameState) : Prop :=
  boardOK s.board ∧ cachesInRange s ∧ kingCachesAccurate s ∧ pawnsOK s.board

instance (s : GameState) : Decidable (StateInv s) := by
  unfold StateInv boardOK; infer_instance

theorem stateInv_newGame : StateInv newGame := by decide

/-- `makeMove` with a board-consistent move preserves the invariant. -/
theorem stateInv_makeMove (s : GameState) (m : Move) (hs : StateInv s)
    (hm : MoveOK s.board m) : StateInv (makeMove s m) := by
  obtain ⟨hb, hcr, hk, hpw⟩ := hs
  obtain ⟨hsr0, hsr7, hsc0, hsc7, her0, her7, hec0, hec7, _⟩ := id hm
  have hpm := moveOK_pieceMoved s.board m hm
  have hWKL : (makeMove s m).whiteKingLocation =
      if m.pieceMoved = (CChar.cw, TChar.tK) then (m.endRow, m.endCol)
      else s.whiteKingLocation := rfl
  have hBKL : (makeMove s m).blackKingLocation =
      if m.pieceMoved = (CChar.cb, TChar.tK) then (m.endRow, m.endCol)
      else s.blackKingLocation := rfl
  refine ⟨makeMove_boardOK s m hb hm, ?_, ⟨?_, ?_⟩, ?_, ?_⟩
  · unfold cachesInRange at hcr ⊢
    rw [hWKL, hBKL]
    obtain ⟨a1, a2, a3, a4, a5, a6, a7, a8⟩ := hcr
    split <;> split <;>
      exact ⟨by omega, by omega, by omega, by omega, by omega, by omega, by omega, by omega⟩
  · -- white king cache accuracy
    intro r c hw
    have hri0 : (0 : Int) ≤ (r : Int) := Int.natCast_nonneg _
    have hri7 : ((r : Int) : Int) ≤ 7 := by exact_mod_cast Nat.le_of_lt_succ r.isLt
    have hci0 : (0 : Int) ≤ (c : Int) := Int.natCast_nonneg _
    have hci7 : ((c : Int) : Int) ≤ 7 := by exact_mod_cast Nat.le_of_lt_succ c.isLt
    rw [makeMove_atB s m hb hm _ _ hri0 hri7 hci0 hci7] at hw
    rw [hWKL]
    by_cases h1 : ((r : Int)) = m.endRow ∧ ((c : Int)) = m.endCol
    · rw [if_pos h1] at hw
      by_cases hp : m.isPawnPromotion
      · rw [if_pos hp] at hw
        simp at hw
      · rw [if_neg hp] at hw
        rw [if_pos hw, h1.1, h1.2]
    · rw [if_neg h1] at hw
      by_cases h2 : ((r : Int)) = m.startRow ∧ ((c : Int)) = m.startCol
      · rw [if_pos h2] at hw
        exact absurd hw (by decide)
      · rw [if_neg h2] at hw
        have hold := kingInvW_int s ⟨hk.1, hk.2⟩ _ _ hri0 hri7 hci0 hci7 hw
        split
        · next hWmov =>
          exfalso
          have hstart := kingInvW_int s ⟨hk.1, hk.2⟩ _ _ hsr0 hsr7 hsc0 hsc7 (hpm ▸ hWmov)
          rw [← hstart] at hold
          exact h2 ⟨congrArg Prod.fst hold, congrArg Prod.snd hold⟩
        · exact hold
  · -- black king cache accuracy
    intro r c hw
    have hri0 : (0 : Int) ≤ (r : Int) := Int.natCast_nonneg _
    have hri7 : ((r : Int) : Int) ≤ 7 := by exact_mod_cast Nat.le_of_lt_succ r.isLt
    have hci0 : (0 : Int) ≤ (c : Int) := Int.natCast_nonneg _
    have hci7 : ((c : Int) : Int) ≤ 7 := by exact_mod_cast Nat.le_of_lt_succ c.isLt
    rw [makeMove_atB s m hb hm _ _ hri0 hri7 hci0 hci7] at hw
    rw [hBKL]
    by_cases h1 : ((r : Int)) = m.endRow ∧ ((c : Int)) = m.endCol
    · rw [if_pos h1] at hw
      by_cases hp : m.isPawnPromotion
      · rw [if_pos hp] at hw
        simp at hw
      · rw [if_neg hp] at hw
        rw [if_pos hw, h1.1, h1.2]
    · rw [if_neg h1] at hw
      by_cases h2 : ((r : Int)) = m.startRow ∧ ((c : Int)) = m.startCol
      · rw [if_pos h2] at hw
        exact absurd hw (by decide)
      · rw [if_neg h2] at hw
        have hold := kingInvB_int s ⟨hk.1, hk.2⟩ _ _ hri0 hri7 hci0 hci7 hw
        split
        · next hBmov =>
          exfalso
          have hstart := kingInvB_int s ⟨hk.1, hk.2⟩ _ _ hsr0 hsr7 hsc0 hsc7 (hpm ▸ hBmov)
          rw [← hstart] at hold
          exact h2 ⟨congrArg Prod.fst hold, congrArg Prod.snd hold⟩
        · exact hold
  · -- no white pawn on row 0
    intro c
    have hci0 : (0 : Int) ≤ (c : Int) := Int.natCast_nonneg _
    have hci7 : ((c : Int) : Int) ≤ 7 := by exact_mod_cast Nat.le_of_lt_succ c.isLt
    rw [makeMove_atB s m hb hm _ _ (by omega) (by omega) hci0 hci7]
    by_cases h1 : (0 : Int) = m.endRow ∧ ((c : Int)) = m.endCol
    · rw [if_pos h1]
      by_cases hp : m.isPawnPromotion
      · rw [if_pos hp]
        exact fun hcontra => by simp at hcontra
      · rw [if_neg hp]
        intro hcontra
        apply hp
        rw [moveOK_promotion s.board m hm, hcontra]
        simp [← h1.1]
    · rw [if_neg h1]
      by_cases h2 : (0 : Int) = m.startRow ∧ ((c : Int)) = m.startCol
      · rw [if_pos h2]; decide
      · rw [if_neg h2]
        exact hpw.1 c
  · -- no black pawn on row 7
    intro c
    have hci0 : (0 : Int) ≤ (c : Int) := Int.natCast_nonneg _
    have hci7 : ((c : Int) : Int) ≤ 7 := by exact_mod_cast Nat.le_of_lt_succ c.isLt
    rw [makeMove_atB s m hb hm _ _ (by omega) (by omega) hci0 hci7]
    by_cases h1 : (7 : Int) = m.endRow ∧ ((c : Int)) = m.endCol
    · rw [if_pos h1]
      by_cases hp : m.isPawnPromotion
      · rw [if_pos hp]
        exact fun hcontra => by simp at hcontra
      · rw [if_neg hp]
        intro hcontra
        apply hp
        rw [moveOK_promotion s.board m hm, hcontra]
        simp [← h1.1]
    · rw [if_neg h1]
      by_cases h2 : (7 : Int) = m.startRow ∧ ((c : Int)) = m.startCol
      · rw [if_pos h2]; decide
      · rw [if_neg h2]
        exact hpw.2 c

/-! ### Trajectories of make/undo calls -/

/-- `undoMove` with an empty move log does nothing at all. -/
theorem undoMove_nil (s : GameState) (h : s.moveLog = []) : undoMove s = s := by
  unfold undoMove
  split
  · rfl
  · next m rest heq => rw [h] at heq; cases heq

/-- `undoMove` pops the head of a non-empty log. -/
theorem undoMove_cons (s : GameState) (m : Move) (rest : List Move)
    (h : s.moveLog = m :: rest) :
    undoMove s = { s with
      board := setB (setB s.board m.startRow m.startCol m.pieceMoved)
        m.endRow m.endCol m.pieceCaptured
      moveLog := rest
      whiteToMove := !s.whiteToMove
      whiteKingLocation :=
        if m.pieceMoved = (CChar.cw, TChar.tK) then (m.startRow, m.startCol)
        else s.whiteKingLocation
      blackKingLocation :=
        if m.pieceMoved = (CChar.cb, TChar.tK) then (m.startRow, m.startCol)
        else s.blackKingLocation } := by
  unfold undoMove
  split
  · next heq => rw [h] at heq; cases heq
  · next m' rest' heq =>
    rw [h] at heq
    cases heq
    rfl

/-- Every move of the list is structurally consistent with the board of the
state it is applied to. -/
def ChainFrom : GameState → List Move → Prop
  | _, [] => True
  | s, m :: l => MoveOK s.board m ∧ ChainFrom (makeMove s m) l

/-- Replay a list of moves with `makeMove`. -/
def applyFrom (s : GameState) (l : List Move) : GameState :=
  l.foldl makeMove s

theorem applyFrom_append (s : GameState) (l : List Move) (m : Move) :
    applyFrom s (l ++ [m]) = makeMove (applyFrom s l) m := by
  unfold applyFrom
  rw [List.foldl_append]
  rfl

theorem chainFrom_inv (l : List Move) (s : GameState) (hs : StateInv s)
    (hc : ChainFrom s l) : StateInv (applyFrom s l) := by
  induction l generalizing s with
  | nil => exact hs
  | cons m t ih =>
    obtain ⟨hm, ht⟩ := hc
    exact ih (makeMove s m) (stateInv_makeMove s m hs hm) ht

theorem chainFrom_append (l : List Move) (m : Move) (s : GameState) :
    ChainFrom s (l ++ [m]) ↔ ChainFrom s l ∧ MoveOK (applyFrom s l).board m := by
  induction l generalizing s with
  | nil => simp [ChainFrom, applyFrom]
  | cons m' t ih =>
    show MoveOK s.board m' ∧ ChainFrom (makeMove s m') (t ++ [m]) ↔
      (MoveOK s.board m' ∧ ChainFrom (makeMove s m') t) ∧
        MoveOK (applyFrom (makeMove s m') t).board m
    rw [ih (makeMove s m')]
    exact and_assoc.symm

/-- The states reachable from a fresh game by `makeMove` calls with moves
structurally consistent with the current board (as all moves built by the
`Move` constructor from the live board are) and by arbitrary `undoMove`
calls. -/
inductive ConsTraj : GameState → Prop where
  | base : ConsTraj newGame
  | play (s : GameState) (m : Move) (h : ConsTraj s) (hm : MoveOK s.board m) :
      ConsTraj (makeMove s m)
  | undo (s : GameState) (h : ConsTraj s) : ConsTraj (undoMove s)

/-- `applyFrom` leaves a faithful log: the moves played, most recent
first. -/
theorem applyFrom_log (l : List Move) (s : GameState) :
    (applyFrom s l).moveLog = l.reverse ++ s.moveLog := by
  induction l generalizing s with
  | nil => simp [applyFrom]
  | cons m t ih =>
    show (applyFrom (makeMove s m) t).moveLog = _
    rw [ih (makeMove s m)]
    show t.reverse ++ (m :: s.moveLog) = _
    simp

/-- Every consistent trajectory state is the replay of a consistent chain. -/
theorem consTraj_rep (s : GameState) (h : ConsTraj s) :
    ∃ l, ChainFrom newGame l ∧ s = applyFrom newGame l := by
  induction h with
  | base => exact ⟨[], trivial, rfl⟩
  | play s m _ hm ih =>
    obtain ⟨l, hc, rfl⟩ := ih
    refine ⟨l ++ [m], ?_, ?_⟩
    · rw [chainFrom_append]; exact ⟨hc, hm⟩
    · rw [applyFrom_append]
  | undo s _ ih =>
    obtain ⟨l, hc, rfl⟩ := ih
    rcases List.eq_nil_or_concat l with rfl | ⟨l', m, rfl⟩
    · exact ⟨[], trivial, undoMove_nil _ rfl⟩
    · rw [List.concat_eq_append] at hc ⊢
      rw [chainFrom_append] at hc
      rw [applyFrom_append]
      have hinv := chainFrom_inv l' newGame stateInv_newGame hc.1
      refine ⟨l', hc.1, ?_⟩
      rw [undo_makeMove _ m hinv.1 hinv.2.2.1 hc.2]

theorem consTraj_inv (s : GameState) (h : ConsTraj s) : StateInv s := by
  obtain ⟨l, hc, rfl⟩ := consTraj_rep s h
  exact chainFrom_inv l newGame stateInv_newGame hc

/-! ### Every generated move is constructor-consistent with the board -/

theorem foldl_preserve {σ α : Type} (Q : σ → Prop) (g : σ → α → σ) (l : List α) (init : σ)
    (h0 : Q init) (hstep : ∀ acc a, a ∈ l → Q acc → Q (g acc a)) : Q (l.foldl g init) := by
  induction l generalizing init with
  | nil => exact h0
  | cons a t ih =>
    exact ih (g init a) (hstep init a (List.mem_cons_self a t) h0)
      (fun acc b hb hq => hstep acc b (List.mem_cons_of_mem a hb) hq)

theorem moveOK_mk (bd : Board) (r c er ec : Int)
    (h : 0 ≤ r ∧ r ≤ 7 ∧ 0 ≤ c ∧ c ≤ 7 ∧ 0 ≤ er ∧ er ≤ 7 ∧ 0 ≤ ec ∧ ec ≤ 7) :
    MoveOK bd (mkMove (r, c) (er, ec) bd) :=
  ⟨h.1, h.2.1, h.2.2.1, h.2.2.2.1, h.2.2.2.2.1, h.2.2.2.2.2.1, h.2.2.2.2.2.2.1,
    h.2.2.2.2.2.2.2, rfl⟩

/-- Membership in an `if`-guarded list, keeping the guard. -/
theorem mem_ite_list {α : Type} {c : Prop} [Decidable c] {l1 l2 : List α} {x : α}
    (h : x ∈ if c then l1 else l2) : (c ∧ x ∈ l1) ∨ (¬c ∧ x ∈ l2) := by
  split at h
  · next hc => exact Or.inl ⟨hc, h⟩
  · next hc => exact Or.inr ⟨hc, h⟩

/-- One step of `slideRay`, with the `let`s inlined. -/
theorem slideRay_succ (bd : Board) (enemyColor : CChar) (piecePinned : Bool)
    (pinDirection : Int × Int) (row col : Int) (d : Int × Int) (f : Nat) (i : Int) :
    slideRay bd enemyColor piecePinned pinDirection row col d (f + 1) i =
      if 0 ≤ row + d.1 * i ∧ row + d.1 * i ≤ 7 ∧ 0 ≤ col + d.2 * i ∧ col + d.2 * i ≤ 7 then
        if ¬piecePinned = true ∨ pinDirection = d ∨ pinDirection = (-d.1, -d.2) then
          if atB bd (row + d.1 * i) (col + d.2 * i) = empSq then
            mkMove (row, col) (row + d.1 * i, col + d.2 * i) bd ::
              slideRay bd enemyColor piecePinned pinDirection row col d f (i + 1)
          else if (atB bd (row + d.1 * i) (col + d.2 * i)).1 = enemyColor then
            [mkMove (row, col) (row + d.1 * i, col + d.2 * i) bd]
          else []
        else slideRay bd enemyColor piecePinned pinDirection row col d f (i + 1)
      else [] := rfl

theorem slideRay_moveOK (bd : Board) (enemyColor : CChar) (piecePinned : Bool)
    (pinDirection : Int × Int) (row col : Int) (d : Int × Int)
    (hr0 : 0 ≤ row) (hr7 : row ≤ 7) (hc0 : 0 ≤ col) (hc7 : col ≤ 7) :
    ∀ fuel i, ∀ m ∈ slideRay bd enemyColor piecePinned pinDirection row col d fuel i,
      MoveOK bd m := by
  intro fuel
  induction fuel with
  | zero => intro i m hm; cases hm
  | succ f ih =>
    intro i m hm
    rw [slideRay_succ] at hm
    rcases mem_ite_list hm with ⟨hb, hm⟩ | ⟨-, hm⟩
    · rcases mem_ite_list hm with ⟨-, hm⟩ | ⟨-, hm⟩
      · rcases mem_ite_list hm with ⟨-, hm⟩ | ⟨-, hm⟩
        · rcases List.mem_cons.1 hm with rfl | hm2
          · exact moveOK_mk bd _ _ _ _
              ⟨hr0, hr7, hc0, hc7, by omega, by omega, by omega, by omega⟩
          · exact ih (i + 1) m hm2
        · rcases mem_ite_list hm with ⟨-, hm⟩ | ⟨-, hm⟩
          · rcases List.mem_singleton.1 hm with rfl
            exact moveOK_mk bd _ _ _ _
              ⟨hr0, hr7, hc0, hc7, by omega, by omega, by omega, by omega⟩
          · cases hm
      · exact ih (i + 1) m hm
    · cases hm

theorem getPawnMoves_moveOK (bd : Board) (wtm : Bool) (pins : List Entry) (row col : Int)
    (hr0 : 0 ≤ row) (hr7 : row ≤ 7) (hc0 : 0 ≤ col) (hc7 : col ≤ 7)
    (hw : wtm = true → 1 ≤ row) (hbk : wtm = false → row ≤ 6) :
    ∀ m ∈ (getPawnMoves bd wtm pins row col).2, MoveOK bd m := by
  intro m hm
  unfold getPawnMoves at hm
  dsimp only [] at hm
  rcases mem_ite_list hm with ⟨hwt, hm⟩ | ⟨hwf, hm⟩
  · have hr1 : 1 ≤ row := hw hwt
    rcases List.mem_append.1 hm with hm | hm
    · rcases List.mem_append.1 hm with hm | hm
      · rcases mem_ite_list hm with ⟨-, hm⟩ | ⟨-, hm⟩
        · rcases mem_ite_list hm with ⟨-, hm⟩ | ⟨-, hm⟩
          · rcases List.mem_cons.1 hm with rfl | hm2
            · exact moveOK_mk bd _ _ _ _
                ⟨hr0, hr7, hc0, hc7, by omega, by omega, by omega, by omega⟩
            · rcases mem_ite_list hm2 with ⟨⟨h6, -⟩, hm3⟩ | ⟨-, hm3⟩
              · rcases List.mem_singleton.1 hm3 with rfl
                exact moveOK_mk bd _ _ _ _
                  ⟨hr0, hr7, hc0, hc7, by omega, by omega, by omega, by omega⟩
              · cases hm3
          · cases hm
        · cases hm
      · rcases mem_ite_list hm with ⟨hcm, hm⟩ | ⟨-, hm⟩
        · rcases mem_ite_list hm with ⟨-, hm⟩ | ⟨-, hm⟩
          · rcases mem_ite_list hm with ⟨-, hm⟩ | ⟨-, hm⟩
            · rcases List.mem_singleton.1 hm with rfl
              exact moveOK_mk bd _ _ _ _
                ⟨hr0, hr7, hc0, hc7, by omega, by omega, by omega, by omega⟩
            · cases hm
          · cases hm
        · cases hm
    · rcases mem_ite_list hm with ⟨hcm, hm⟩ | ⟨-, hm⟩
      · rcases mem_ite_list hm with ⟨-, hm⟩ | ⟨-, hm⟩
        · rcases mem_ite_list hm with ⟨-, hm⟩ | ⟨-, hm⟩
          · rcases List.mem_singleton.1 hm with rfl
            exact moveOK_mk bd _ _ _ _
              ⟨hr0, hr7, hc0, hc7, by omega, by omega, by omega, by omega⟩
          · cases hm
        · cases hm
      · cases hm
  · have hr6 : row ≤ 6 := hbk (by revert hwf; cases wtm <;> simp)
    rcases List.mem_append.1 hm with hm | hm
    · rcases List.mem_append.1 hm with hm | hm
      · rcases mem_ite_list hm with ⟨-, hm⟩ | ⟨-, hm⟩
        · rcases mem_ite_list hm with ⟨-, hm⟩ | ⟨-, hm⟩
          · rcases List.mem_cons.1 hm with rfl | hm2
            · exact moveOK_mk bd _ _ _ _
                ⟨hr0, hr7, hc0, hc7, by omega, by omega, by omega, by omega⟩
            · rcases mem_ite_list hm2 with ⟨⟨h6, -⟩, hm3⟩ | ⟨-, hm3⟩
              · rcases List.mem_singleton.1 hm3 with rfl
                exact moveOK_mk bd _ _ _ _
                  ⟨hr0, hr7, hc0, hc7, by omega, by omega, by omega, by omega⟩
              · cases hm3
          · cases hm
        · cases hm
      · rcases mem_ite_list hm with ⟨hcm, hm⟩ | ⟨-, hm⟩
        · rcases mem_ite_list hm with ⟨-, hm⟩ | ⟨-, hm⟩
          · rcases mem_ite_list hm with ⟨-, hm⟩ | ⟨-, hm⟩
            · rcases List.mem_singleton.1 hm with rfl
              exact moveOK_mk bd _ _ _ _
                ⟨hr0, hr7, hc0, hc7, by omega, by omega, by omega, by omega⟩
            · cases hm
          · cases hm
        · cases hm
    · rcases mem_ite_list hm with ⟨hcm, hm⟩ | ⟨-, hm⟩
      · rcases mem_ite_list hm with ⟨-, hm⟩ | ⟨-, hm⟩
        · rcases mem_ite_list hm with ⟨-, hm⟩ | ⟨-, hm⟩
          · rcases List.mem_singleton.1 hm with rfl
            exact moveOK_mk bd _ _ _ _
              ⟨hr0, hr7, hc0, hc7, by omega, by omega, by omega, by omega⟩
          · cases hm
        · cases hm
      · cases hm

theorem getRookMoves_moveOK (bd : Board) (wtm : Bool) (pins : List Entry) (row col : Int)
    (hr0 : 0 ≤ row) (hr7 : row ≤ 7) (hc0 : 0 ≤ col) (hc7 : col ≤ 7) :
    ∀ m ∈ (getRookMoves bd wtm pins row col).2, MoveOK bd m := by
  unfold getRookMoves
  dsimp only []
  refine foldl_preserve (fun l => ∀ m ∈ l, MoveOK bd m) _ _ _ (by intro m hm; cases hm) ?_
  intro acc d _ hacc m hm
  rcases List.mem_append.1 hm with h | h
  · exact hacc m h
  · exact slideRay_moveOK bd _ _ _ row col d hr0 hr7 hc0 hc7 7 1 m h

theorem getBishopMoves_moveOK (bd : Board) (wtm : Bool) (pins : List Entry) (row col : Int)
    (hr0 : 0 ≤ row) (hr7 : row ≤ 7) (hc0 : 0 ≤ col) (hc7 : col ≤ 7) :
    ∀ m ∈ (getBishopMoves bd wtm pins row col).2, MoveOK bd m := by
  unfold getBishopMoves
  dsimp only []
  refine foldl_preserve (fun l => ∀ m ∈ l, MoveOK bd m) _ _ _ (by intro m hm; cases hm) ?_
  intro acc d _ hacc m hm
  rcases List.mem_append.1 hm with h | h
  · exact hacc m h
  · exact slideRay_moveOK bd _ _ _ row col d hr0 hr7 hc0 hc7 7 1 m h

theorem getKnightMoves_moveOK (bd : Board) (wtm : Bool) (pins : List Entry) (row col : Int)
    (hr0 : 0 ≤ row) (hr7 : row ≤ 7) (hc0 : 0 ≤ col) (hc7 : col ≤ 7) :
    ∀ m ∈ (getKnightMoves bd wtm pins row col).2, MoveOK bd m := by
  unfold getKnightMoves
  dsimp only []
  refine foldl_preserve (fun l => ∀ m ∈ l, MoveOK bd m) _ _ _ (by intro m hm; cases hm) ?_
  intro acc a _ hacc m hm
  rcases mem_ite_list hm with ⟨hb, hm⟩ | ⟨-, hm⟩
  · rcases mem_ite_list hm with ⟨-, hm⟩ | ⟨-, hm⟩
    · rcases mem_ite_list hm with ⟨-, hm⟩ | ⟨-, hm⟩
      · rcases List.mem_append.1 hm with h | h
        · exact hacc m h
        · rcases List.mem_singleton.1 h with rfl
          exact moveOK_mk bd _ _ _ _
            ⟨hr0, hr7, hc0, hc7, by omega, by omega, by omega, by omega⟩
      · exact hacc m hm
    · exact hacc m hm
  · exact hacc m hm

theorem getQueenMoves_moveOK (bd : Board) (wtm : Bool) (pins : List Entry) (row col : Int)
    (hr0 : 0 ≤ row) (hr7 : row ≤ 7) (hc0 : 0 ≤ col) (hc7 : col ≤ 7) :
    ∀ m ∈ (getQueenMoves bd wtm pins row col).2, MoveOK bd m := by
  intro m hm
  unfold getQueenMoves at hm
  dsimp only [] at hm
  rcases List.mem_append.1 hm with h | h
  · exact getBishopMoves_moveOK bd wtm pins row col hr0 hr7 hc0 hc7 m h
  · exact getRookMoves_moveOK bd wtm _ row col hr0 hr7 hc0 hc7 m h

/-- Each `getKingMovesStep` call either leaves the accumulator untouched or,
for an on-board non-ally destination, sets the ally king-location to the
restored `(row, col)`, keeps the enemy one, and possibly appends the
candidate move. -/
theorem getKingMovesStep_cases (bd : Board) (wtm : Bool) (row col : Int)
    (acc : (Int × Int) × (Int × Int) × List Move) (a : Int × Int) :
    getKingMovesStep bd wtm row col acc a = acc ∨
    (0 ≤ row + a.1 ∧ row + a.1 ≤ 7 ∧ 0 ≤ col + a.2 ∧ col + a.2 ≤ 7 ∧
      ((getKingMovesStep bd wtm row col acc a =
          (if wtm then (row, col) else acc.1, if wtm then acc.2.1 else (row, col),
            acc.2.2)) ∨
       (getKingMovesStep bd wtm row col acc a =
          (if wtm then (row, col) else acc.1, if wtm then acc.2.1 else (row, col),
            acc.2.2 ++ [mkMove (row, col) (row + a.1, col + a.2) bd])))) := by
  unfold getKingMovesStep
  dsimp only []
  repeat' split
  all_goals first
    | (left; rfl)
    | (right; exact ⟨by omega, by omega, by omega, by omega, Or.inl rfl⟩)
    | (right; exact ⟨by omega, by omega, by omega, by omega, Or.inr rfl⟩)
    | simp_all

theorem getKingMoves_moveOK (bd : Board) (wtm : Bool) (wKL bKL : Int × Int) (row col : Int)
    (hr0 : 0 ≤ row) (hr7 : row ≤ 7) (hc0 : 0 ≤ col) (hc7 : col ≤ 7) :
    ∀ m ∈ (getKingMoves bd wtm wKL bKL row col).2.2, MoveOK bd m := by
  unfold getKingMoves
  refine foldl_preserve (fun acc : (Int × Int) × (Int × Int) × List Move =>
    ∀ m ∈ acc.2.2, MoveOK bd m) _ _ _ (by intro m hm; cases hm) ?_
  intro acc a _ hacc m hm
  rcases getKingMovesStep_cases bd wtm row col acc a with heq | ⟨b1, b2, b3, b4, heq | heq⟩ <;>
    rw [heq] at hm
  · exact hacc m hm
  · exact hacc m hm
  · rcases List.mem_append.1 hm with h | h
    · exact hacc m h
    · rcases List.mem_singleton.1 h with rfl
      exact moveOK_mk bd _ _ _ _ ⟨hr0, hr7, hc0, hc7, by omega, by omega, by omega, by omega⟩

theorem sweepSquare_moveOK (bd : Board) (wtm : Bool) (acc : SweepAcc) (r c : Int)
    (hpw : pawnsOK bd) (hr0 : 0 ≤ r) (hr7 : r ≤ 7) (hc0 : 0 ≤ c) (hc7 : c ≤ 7)
    (hacc : ∀ m ∈ acc.moves, MoveOK bd m) :
    ∀ m ∈ (sweepSquare bd wtm acc r c).moves, MoveOK bd m := by
  unfold sweepSquare
  dsimp only []
  split
  · split
    · next hturn =>
      unfold pieceDispatch
      cases ht : (atB bd r c).2 <;> intro m hm <;> dsimp only [] at hm
      · -- pawn
        rcases List.mem_append.1 hm with h | h
        · exact hacc m h
        · refine getPawnMoves_moveOK bd wtm acc.pins r c hr0 hr7 hc0 hc7 ?_ ?_ m h
          · intro hwt
            rcases hturn with ⟨hcw, -⟩ | ⟨-, hdark⟩
            · by_contra hlt
              have hr00 : r = 0 := by omega
              have hcnn : ((c.toNat : Nat) : Int) = c := Int.toNat_of_nonneg hc0
              apply hpw.1 ⟨c.toNat, by omega⟩
              rw [hcnn, ← hr00]
              exact Prod.ext hcw ht
            · rw [hwt] at hdark; exact absurd rfl hdark
          · intro hwt
            rcases hturn with ⟨-, hlight⟩ | ⟨hcb, -⟩
            · rw [hwt] at hlight; cases hlight
            · by_contra hlt
              have hr77 : r = 7 := by omega
              have hcnn : ((c.toNat : Nat) : Int) = c := Int.toNat_of_nonneg hc0
              apply hpw.2 ⟨c.toNat, by omega⟩
              rw [hcnn, ← hr77]
              exact Prod.ext hcb ht
      · rcases List.mem_append.1 hm with h | h
        · exact hacc m h
        · exact getRookMoves_moveOK bd wtm acc.pins r c hr0 hr7 hc0 hc7 m h
      · rcases List.mem_append.1 hm with h | h
        · exact hacc m h
        · exact getKnightMoves_moveOK bd wtm acc.pins r c hr0 hr7 hc0 hc7 m h
      · rcases List.mem_append.1 hm with h | h
        · exact hacc m h
        · exact getBishopMoves_moveOK bd wtm acc.pins r c hr0 hr7 hc0 hc7 m h
      · rcases List.mem_append.1 hm with h | h
        · exact hacc m h
        · exact getQueenMoves_moveOK bd wtm acc.pins r c hr0 hr7 hc0 hc7 m h
      · rcases List.mem_append.1 hm with h | h
        · exact hacc m h
        · exact getKingMoves_moveOK bd wtm acc.wKL acc.bKL r c hr0 hr7 hc0 hc7 m h
      · exact hacc m hm
    · exact hacc
  · exact hacc

theorem getAllPossibleMoves_moveOK (bd : Board) (wtm : Bool) (pins : List Entry)
    (wKL bKL : Int × Int) (hpw : pawnsOK bd) :
    ∀ m ∈ (getAllPossibleMoves bd wtm pins wKL bKL).moves, MoveOK bd m := by
  unfold getAllPossibleMoves
  refine foldl_preserve (fun acc : SweepAcc => ∀ m ∈ acc.moves, MoveOK bd m) _ _ _
    (by intro m hm; cases hm) ?_
  intro acc r hr hacc
  refine foldl_preserve (fun acc : SweepAcc => ∀ m ∈ acc.moves, MoveOK bd m) _ _ _ hacc ?_
  intro acc2 c hc hacc2
  have hr8 := mem_boardIndices r hr
  have hc8 := mem_boardIndices c hc
  exact sweepSquare_moveOK bd wtm acc2 r c hpw hr8.1 hr8.2 hc8.1 hc8.2 hacc2

theorem getValidMoves_moveOK (s : GameState) (hpw : pawnsOK s.board)
    (hcr : cachesInRange s) :
    ∀ m ∈ (getValidMoves s).2, MoveOK s.board m := by
  intro m hm
  unfold getValidMoves at hm
  dsimp only [] at hm
  split at hm
  · split at hm
    · -- single check: a filter of the full sweep
      have hmem := (List.mem_filter.1 hm).1
      exact getAllPossibleMoves_moveOK s.board s.whiteToMove _ _ _ hpw m hmem
    · -- double check: only king moves, generated from the cached king square
      obtain ⟨a1, a2, a3, a4, a5, a6, a7, a8⟩ := hcr
      split at hm
      · exact getKingMoves_moveOK s.board _ _ _ _ _ (by omega) (by omega) (by omega)
          (by omega) m hm
      · exact getKingMoves_moveOK s.board _ _ _ _ _ (by omega) (by omega) (by omega)
          (by omega) m hm
  · exact getAllPossibleMoves_moveOK s.board s.whiteToMove _ _ _ hpw m hm

/-! ### `getValidMoves` leaves the persistent state unchanged -/

/-- The side to move's king cache is accurate: every board square holding
the side to move's king is the corresponding cached location. -/
def stmKingCacheAccurate (s : GameState) : Prop :=
  ∀ r c : Fin 8,
    atB s.board (r : Int) (c : Int) =
      ((if s.whiteToMove then CChar.cw else CChar.cb), TChar.tK) →
    ((r : Int), (c : Int)) =
      (if s.whiteToMove then s.whiteKingLocation else s.blackKingLocation)

instance (s : GameState) : Decidable (stmKingCacheAccurate s) := by
  unfold stmKingCacheAccurate; infer_instance

theorem getKingMoves_caches_white (bd : Board) (wKL bKL : Int × Int) (row col : Int) :
    (getKingMoves bd true wKL bKL row col).2.1 = bKL ∧
    ((getKingMoves bd true wKL bKL row col).1 = wKL ∨
      (getKingMoves bd true wKL bKL row col).1 = (row, col)) := by
  unfold getKingMoves
  refine foldl_preserve (fun acc : (Int × Int) × (Int × Int) × List Move =>
    acc.2.1 = bKL ∧ (acc.1 = wKL ∨ acc.1 = (row, col))) _ _ _ ⟨rfl, Or.inl rfl⟩ ?_
  intro acc a _ hq
  rcases getKingMovesStep_cases bd true row col acc a with heq | ⟨-, -, -, -, heq | heq⟩ <;>
    rw [heq]
  · exact hq
  · exact ⟨by simpa using hq.1, Or.inr (by simp)⟩
  · exact ⟨by simpa using hq.1, Or.inr (by simp)⟩

theorem getKingMoves_caches_black (bd : Board) (wKL bKL : Int × Int) (row col : Int) :
    (getKingMoves bd false wKL bKL row col).1 = wKL ∧
    ((getKingMoves bd false wKL bKL row col).2.1 = bKL ∨
      (getKingMoves bd false wKL bKL row col).2.1 = (row, col)) := by
  unfold getKingMoves
  refine foldl_preserve (fun acc : (Int × Int) × (Int × Int) × List Move =>
    acc.1 = wKL ∧ (acc.2.1 = bKL ∨ acc.2.1 = (row, col))) _ _ _ ⟨rfl, Or.inl rfl⟩ ?_
  intro acc a _ hq
  rcases getKingMovesStep_cases bd false row col acc a with heq | ⟨-, -, -, -, heq | heq⟩ <;>
    rw [heq]
  · exact hq
  · exact ⟨by simpa using hq.1, Or.inr (by simp)⟩
  · exact ⟨by simpa using hq.1, Or.inr (by simp)⟩

theorem sweepSquare_caches (bd : Board) (wtm : Bool) (acc : SweepAcc) (r c : Int)
    (wKL bKL : Int × Int)
    (hr0 : 0 ≤ r) (hr7 : r ≤ 7) (hc0 : 0 ≤ c) (hc7 : c ≤ 7)
    (hking : ∀ r' c' : Int, 0 ≤ r' → r' ≤ 7 → 0 ≤ c' → c' ≤ 7 →
      atB bd r' c' = ((if wtm then CChar.cw else CChar.cb), TChar.tK) →
      (r', c') = (if wtm then wKL else bKL))
    (hq : acc.wKL = wKL ∧ acc.bKL = bKL) :
    (sweepSquare bd wtm acc r c).wKL = wKL ∧ (sweepSquare bd wtm acc r c).bKL = bKL := by
  unfold sweepSquare
  dsimp only []
  split
  · split
    · next hturn =>
      unfold pieceDispatch
      cases ht : (atB bd r c).2
      case tK =>
        dsimp only []
        cases hw : wtm
        case true =>
          have hcol : (atB bd r c).1 = CChar.cw := by
            rcases hturn with ⟨h1, -⟩ | ⟨-, h2⟩
            · exact h1
            · rw [hw] at h2; exact absurd rfl h2
          have hsq : atB bd r c = (CChar.cw, TChar.tK) := Prod.ext hcol ht
          have hcache : (r, c) = wKL := by
            have := hking r c hr0 hr7 hc0 hc7 (by rw [hw, if_pos rfl]; exact hsq)
            rw [hw, if_pos rfl] at this
            exact this
          obtain ⟨hb, hwor⟩ := getKingMoves_caches_white bd acc.wKL acc.bKL r c
          constructor
          · rcases hwor with h | h
            · rw [h]; exact hq.1
            · rw [h, hcache]
          · rw [hb]; exact hq.2
        case false =>
          have hcol : (atB bd r c).1 = CChar.cb := by
            rcases hturn with ⟨-, h1⟩ | ⟨h2, -⟩
            · rw [hw] at h1; cases h1
            · exact h2
          have hsq : atB bd r c = (CChar.cb, TChar.tK) := Prod.ext hcol ht
          have hcache : (r, c) = bKL := by
            have := hking r c hr0 hr7 hc0 hc7 (by rw [hw]; simpa using hsq)
            rw [hw] at this
            simpa using this
          obtain ⟨hwq, hbor⟩ := getKingMoves_caches_black bd acc.wKL acc.bKL r c
          constructor
          · rw [hwq]; exact hq.1
          · rcases hbor with h | h
            · rw [h]; exact hq.2
            · rw [h, hcache]
      all_goals exact hq
    · exact hq
  · exact hq

theorem getAllPossibleMoves_caches (bd : Board) (wtm : Bool) (pins : List Entry)
    (wKL bKL : Int × Int)
    (hking : ∀ r' c' : Int, 0 ≤ r' → r' ≤ 7 → 0 ≤ c' → c' ≤ 7 →
      atB bd r' c' = ((if wtm then CChar.cw else CChar.cb), TChar.tK) →
      (r', c') = (if wtm then wKL else bKL)) :
    (getAllPossibleMoves bd wtm pins wKL bKL).wKL = wKL ∧
    (getAllPossibleMoves bd wtm pins wKL bKL).bKL = bKL := by
  unfold getAllPossibleMoves
  refine foldl_preserve (fun acc : SweepAcc => acc.wKL = wKL ∧ acc.bKL = bKL) _ _ _
    ⟨rfl, rfl⟩ ?_
  intro acc r hr hq
  refine foldl_preserve (fun acc : SweepAcc => acc.wKL = wKL ∧ acc.bKL = bKL) _ _ _ hq ?_
  intro acc2 c hc hq2
  have hr8 := mem_boardIndices r hr
  have hc8 := mem_boardIndices c hc
  exact sweepSquare_caches bd wtm acc2 r c wKL bKL hr8.1 hr8.2 hc8.1 hc8.2 hking hq2

/-- `getValidMoves` does not change the persistent state: the board, the
side-to-move flag, the move log and (because `getKingMoves` restores what
it moved, and the only king squares dispatched are the cached ones) both
king-location caches of the returned state equal the input's. -/
theorem getValidMoves_frame (s : GameState) (h : stmKingCacheAccurate s) :
    (getValidMoves s).1.board = s.board ∧
    (getValidMoves s).1.whiteToMove = s.whiteToMove ∧
    (getValidMoves s).1.moveLog = s.moveLog ∧
    (getValidMoves s).1.whiteKingLocation = s.whiteKingLocation ∧
    (getValidMoves s).1.blackKingLocation = s.blackKingLocation := by
  have hking : ∀ r' c' : Int, 0 ≤ r' → r' ≤ 7 → 0 ≤ c' → c' ≤ 7 →
      atB s.board r' c' = ((if s.whiteToMove then CChar.cw else CChar.cb), TChar.tK) →
      (r', c') = (if s.whiteToMove then s.whiteKingLocation else s.blackKingLocation) := by
    intro r' c' h1 h2 h3 h4 hsq
    have hr : ((r'.toNat : Nat) : Int) = r' := Int.toNat_of_nonneg h1
    have hc : ((c'.toNat : Nat) : Int) = c' := Int.toNat_of_nonneg h3
    have := h ⟨r'.toNat, by omega⟩ ⟨c'.toNat, by omega⟩ (by rw [hr, hc]; exact hsq)
    rw [hr, hc] at this
    exact this
  unfold getValidMoves
  dsimp only []
  split
  · split
    · -- single check
      have hc := getAllPossibleMoves_caches s.board s.whiteToMove
        (checkForPinsAndChecks s).2.1 s.whiteKingLocation s.blackKingLocation hking
      exact ⟨rfl, rfl, rfl, hc.1, hc.2⟩
    · -- double check: king moves generated from the cached square itself
      cases hw : s.whiteToMove
      case true =>
        refine ⟨rfl, rfl, rfl, ?_, ?_⟩
        · show (getKingMoves s.board true s.whiteKingLocation s.blackKingLocation
            s.whiteKingLocation.1 s.whiteKingLocation.2).1 = s.whiteKingLocation
          obtain ⟨-, hwor⟩ := getKingMoves_caches_white s.board s.whiteKingLocation
            s.blackKingLocation s.whiteKingLocation.1 s.whiteKingLocation.2
          rcases hwor with h2 | h2
          · exact h2
          · rw [h2]
        · show (getKingMoves s.board true s.whiteKingLocation s.blackKingLocation
            s.whiteKingLocation.1 s.whiteKingLocation.2).2.1 = s.blackKingLocation
          exact (getKingMoves_caches_white s.board s.whiteKingLocation
            s.blackKingLocation s.whiteKingLocation.1 s.whiteKingLocation.2).1
      case false =>
        refine ⟨rfl, rfl, rfl, ?_, ?_⟩
        · show (getKingMoves s.board false s.whiteKingLocation s.blackKingLocation
            s.blackKingLocation.1 s.blackKingLocation.2).1 = s.whiteKingLocation
          exact (getKingMoves_caches_black s.board s.whiteKingLocation
            s.blackKingLocation s.blackKingLocation.1 s.blackKingLocation.2).1
        · show (getKingMoves s.board false s.whiteKingLocation s.blackKingLocation
            s.blackKingLocation.1 s.blackKingLocation.2).2.1 = s.blackKingLocation
          obtain ⟨-, hbor⟩ := getKingMoves_caches_black s.board s.whiteKingLocation
            s.blackKingLocation s.blackKingLocation.1 s.blackKingLocation.2
          rcases hbor with h2 | h2
          · exact h2
          · rw [h2]
  · have hc := getAllPossibleMoves_caches s.board s.whiteToMove
      (checkForPinsAndChecks s).2.1 s.whiteKingLocation s.blackKingLocation hking
    exact ⟨rfl, rfl, rfl, hc.1, hc.2⟩

/-! ### Pinned-pawn generation (claim C5) -/

/-- A pseudo-legal pawn action, following the spec's §4.3 words: forward
one square onto an empty square; forward two squares from the starting
rank (row 6 for white, row 1 for black) with both intervening squares
empty; diagonal capture onto a square occupied by an enemy piece. -/
def specPawnStep (bd : Board) (white : Bool) (row col er ec : Int) : Prop :=
  if white then
    (er = row - 1 ∧ ec = col ∧ atB bd (row - 1) col = empSq) ∨
    (er = row - 2 ∧ ec = col ∧ row = 6 ∧ atB bd (row - 1) col = empSq ∧
      atB bd (row - 2) col = empSq) ∨
    (er = row - 1 ∧ (ec = col - 1 ∨ ec = col + 1) ∧ 0 ≤ ec ∧ ec ≤ 7 ∧
      (atB bd (row - 1) ec).1 = CChar.cb)
  else
    (er = row + 1 ∧ ec = col ∧ atB bd (row + 1) col = empSq) ∨
    (er = row + 2 ∧ ec = col ∧ row = 1 ∧ atB bd (row + 1) col = empSq ∧
      atB bd (row + 2) col = empSq) ∨
    (er = row + 1 ∧ (ec = col - 1 ∨ ec = col + 1) ∧ 0 ≤ ec ∧ ec ≤ 7 ∧
      (atB bd (row + 1) ec).1 = CChar.cw)

/-- The step direction of a pawn action: one step toward the opponent,
with the horizontal component read off the destination file. -/
def pawnStepDir (white : Bool) (ec col : Int) : Int × Int :=
  ((if white then -1 else 1), if ec < col then -1 else if ec = col then 0 else 1)

theorem pawnStepDir_same (w : Bool) (col : Int) :
    pawnStepDir w col col = ((if w then -1 else 1 : Int), 0) := by
  unfold pawnStepDir
  have h2 : (if col < col then (-1 : Int) else if col = col then 0 else 1) = 0 := by
    rw [if_neg (by omega), if_pos rfl]
  rw [h2]

theorem pawnStepDir_left (w : Bool) (ec col : Int) (h : ec = col - 1) :
    pawnStepDir w ec col = ((if w then -1 else 1 : Int), -1) := by
  unfold pawnStepDir
  have h2 : (if ec < col then (-1 : Int) else if ec = col then 0 else 1) = -1 := by
    rw [if_pos (by omega)]
  rw [h2]

theorem pawnStepDir_right (w : Bool) (ec col : Int) (h : ec = col + 1) :
    pawnStepDir w ec col = ((if w then -1 else 1 : Int), 1) := by
  unfold pawnStepDir
  have h2 : (if ec < col then (-1 : Int) else if ec = col then 0 else 1) = 1 := by
    rw [if_neg (by omega), if_neg (by omega)]
  rw [h2]

theorem mkMove_end_inj (bd : Board) (a e1 e2 : Int × Int)
    (h : mkMove a e1 bd = mkMove a e2 bd) : e1 = e2 :=
  Prod.ext (congrArg Move.endRow h) (congrArg Move.endCol h)

/-! ### Where the scan's check entries point (claim C4) -/

theorem isRayAttacker_ne_tN (e : CChar) (j : Nat) (i : Int) (t : TChar)
    (h : isRayAttacker e j i t) : t ≠ TChar.tN := by
  rcases h with ⟨-, rfl⟩ | ⟨-, -, rfl⟩ | ⟨-, rfl, -⟩ | rfl | ⟨-, rfl⟩ <;> decide

/-- One step of `walkRay`, with the `let`s inlined. -/
theorem walkRay_succ (bd : Board) (enemyColor allyColor : CChar) (startRow startCol : Int)
    (j : Nat) (d : Int × Int) (f : Nat) (i : Int) (pp : Option Entry) :
    walkRay bd enemyColor allyColor startRow startCol j d (f + 1) i pp =
      if 0 ≤ startRow + d.1 * i ∧ startRow + d.1 * i < 8 ∧
          0 ≤ startCol + d.2 * i ∧ startCol + d.2 * i < 8 then
        if (atB bd (startRow + d.1 * i) (startCol + d.2 * i)).1 = allyColor then
          match pp with
          | none => walkRay bd enemyColor allyColor startRow startCol j d f (i + 1)
              (some (startRow + d.1 * i, startCol + d.2 * i, d.1, d.2))
          | some _ => (false, [], [])
        else if (atB bd (startRow + d.1 * i) (startCol + d.2 * i)).1 = enemyColor then
          if isRayAttacker enemyColor j i (atB bd (startRow + d.1 * i) (startCol + d.2 * i)).2 then
            match pp with
            | none => (true, [], [(startRow + d.1 * i, startCol + d.2 * i, d.1, d.2)])
            | some p =>
              let rest := walkRay bd enemyColor allyColor startRow startCol j d f (i + 1)
                (some p)
              (rest.1, p :: rest.2.1, rest.2.2)
          else (false, [], [])
        else walkRay bd enemyColor allyColor startRow startCol j d f (i + 1) pp
      else (false, [], []) := rfl

/-- Every check entry a ray walk produces lies on the walked ray, at a step
within the remaining fuel, and on a square whose piece passes the attacker
test (so is not a knight). -/
theorem walkRay_checks (bd : Board) (enemyColor allyColor : CChar)
    (startRow startCol : Int) (j : Nat) (d : Int × Int) :
    ∀ (f : Nat) (i : Int) (pp : Option Entry),
      ∀ c ∈ (walkRay bd enemyColor allyColor startRow startCol j d f i pp).2.2,
        ∃ k : Int, i ≤ k ∧ k ≤ i + f - 1 ∧
          c = (startRow + d.1 * k, startCol + d.2 * k, d.1, d.2) ∧
          isRayAttacker enemyColor j k (atB bd (startRow + d.1 * k) (startCol + d.2 * k)).2 := by
  intro f
  induction f with
  | zero =>
    intro i pp c hc
    exact absurd hc (List.not_mem_nil c)
  | succ f ih =>
    intro i pp c hc
    rw [walkRay_succ] at hc
    rcases pp with - | p
    · split at hc
      · split at hc
        · obtain ⟨k, h1, h2, h3, h4⟩ := ih (i + 1) _ c hc
          exact ⟨k, by omega, by omega, h3, h4⟩
        · split at hc
          · split at hc
            · next hatt =>
              have := List.mem_singleton.1 hc
              exact ⟨i, le_refl i, by omega, this, hatt⟩
            · exact absurd hc (List.not_mem_nil c)
          · obtain ⟨k, h1, h2, h3, h4⟩ := ih (i + 1) _ c hc
            exact ⟨k, by omega, by omega, h3, h4⟩
      · exact absurd hc (List.not_mem_nil c)
    · split at hc
      · split at hc
        · exact absurd hc (List.not_mem_nil c)
        · split at hc
          · split at hc
            · obtain ⟨k, h1, h2, h3, h4⟩ := ih (i + 1) (some p) c hc
              exact ⟨k, by omega, by omega, h3, h4⟩
            · exact absurd hc (List.not_mem_nil c)
          · obtain ⟨k, h1, h2, h3, h4⟩ := ih (i + 1) (some p) c hc
            exact ⟨k, by omega, by omega, h3, h4⟩
      · exact absurd hc (List.not_mem_nil c)

theorem knightChecks_mem (bd : Board) (enemyColor : CChar) (startRow startCol : Int) :
    ∀ c ∈ (knightChecks bd enemyColor startRow startCol).2,
      (atB bd c.1 c.2.1).1 = enemyColor ∧ (atB bd c.1 c.2.1).2 = TChar.tN := by
  unfold knightChecks
  refine foldl_preserve (fun acc : Bool × List Entry => ∀ c ∈ acc.2,
    (atB bd c.1 c.2.1).1 = enemyColor ∧ (atB bd c.1 c.2.1).2 = TChar.tN) _ _ _
    (by intro c hc; exact absurd hc (List.not_mem_nil c)) ?_
  intro acc a _ hacc c hc
  dsimp only [] at hc
  split at hc
  · split at hc
    · next hpiece =>
      rcases List.mem_append.1 hc with h | h
      · exact hacc c h
      · have := List.mem_singleton.1 h
        subst this
        exact hpiece
    · exact hacc c hc
  · exact hacc c hc

/-- Every check entry of the scan either sits on a knight square or lies on
one of the eight (nonzero) scan directions — recorded in the entry itself —
at a distance between 1 and 7 from the scanned square. -/
theorem scan_checks_mem (bd : Board) (wtm : Bool) (startRow startCol : Int) :
    ∀ c ∈ (checkForPinsAndChecksAt bd wtm startRow startCol).2.2,
      (atB bd c.1 c.2.1).2 = TChar.tN ∨
      ((atB bd c.1 c.2.1).2 ≠ TChar.tN ∧
        ∃ k : Int, 1 ≤ k ∧ k ≤ 7 ∧ c.1 = startRow + c.2.2.1 * k ∧
          c.2.1 = startCol + c.2.2.2 * k ∧ ¬(c.2.2.1 = 0 ∧ c.2.2.2 = 0)) := by
  have hdirs : ∀ a ∈ List.range 8, ¬((pyIdx scanDirs (0, 0) (a : Int)).1 = 0 ∧
      (pyIdx scanDirs (0, 0) (a : Int)).2 = 0) := by decide
  intro c hc
  unfold checkForPinsAndChecksAt at hc
  dsimp only [] at hc
  rcases List.mem_append.1 hc with hc | hc
  · -- ray part
    right
    revert hc
    refine foldl_preserve (fun acc : Bool × List Entry × List Entry =>
      c ∈ acc.2.2 → ((atB bd c.1 c.2.1).2 ≠ TChar.tN ∧
        ∃ k : Int, 1 ≤ k ∧ k ≤ 7 ∧ c.1 = startRow + c.2.2.1 * k ∧
          c.2.1 = startCol + c.2.2.2 * k ∧ ¬(c.2.2.1 = 0 ∧ c.2.2.2 = 0))) _ _ _
      (fun hc => absurd hc (List.not_mem_nil c)) ?_
    intro acc a ha hacc hc
    rcases List.mem_append.1 hc with h | h
    · exact hacc h
    · obtain ⟨k, h1, h2, h3, h4⟩ := walkRay_checks bd _ _ startRow startCol a
        (pyIdx scanDirs (0, 0) (a : Int)) 7 1 none c h

      subst h3
      refine ⟨isRayAttacker_ne_tN _ a k _ h4, k, h1, by omega, rfl, rfl, hdirs a ha⟩
  · -- knight part
    left
    exact (knightChecks_mem bd _ startRow startCol c hc).2

theorem ray_step_inj (dr dc : Int) (hd : ¬(dr = 0 ∧ dc = 0)) (t s : Int)
    (h1 : dr * t = dr * s) (h2 : dc * t = dc * s) : t = s := by
  by_cases hdr : dr = 0
  · have hdc : dc ≠ 0 := fun h => hd ⟨hdr, h⟩
    exact mul_left_cancel₀ hdc h2
  · exact mul_left_cancel₀ hdr h1

/-- Membership in the `validSquares` ray list: exactly the squares
`king + direction * t` for `1 ≤ t ≤ k`, when the checking piece stands at
step `k ∈ [1, 7]` of the (nonzero) direction. -/
theorem buildValidSquares_mem (kr kc dr dc cr cc : Int) (hd : ¬(dr = 0 ∧ dc = 0))
    (k : Int) (hcr : cr = kr + dr * k) (hcc : cc = kc + dc * k) :
    ∀ (f : Nat) (i : Int), 1 ≤ i → i ≤ k → k < i + f →
      ∀ e : Int × Int, (e ∈ buildValidSquares kr kc dr dc cr cc f i ↔
        ∃ t : Int, i ≤ t ∧ t ≤ k ∧ e = (kr + dr * t, kc + dc * t)) := by
  intro f
  induction f with
  | zero =>
    intro i h1 h2 h3
    exfalso
    omega
  | succ f ih =>
    intro i h1 h2 h3 e
    show e ∈ (if kr + dr * i = cr ∧ kc + dc * i = cc then _ else _) ↔ _
    by_cases hik : i = k
    · subst hik
      rw [if_pos ⟨by omega, by omega⟩, List.mem_singleton]
      constructor
      · intro he
        exact ⟨i, le_refl i, le_refl i, he⟩
      · rintro ⟨t, ht1, ht2, rfl⟩
        have : t = i := by omega
        rw [this]
    · have hne : ¬(kr + dr * i = cr ∧ kc + dc * i = cc) := by
        rintro ⟨ha, hb⟩
        rw [hcr] at ha
        rw [hcc] at hb
        exact hik (ray_step_inj dr dc hd i k (by omega) (by omega))
      rw [if_neg hne, List.mem_cons,
        ih (i + 1) (by omega) (by omega) (by omega) e]
      constructor
      · rintro (rfl | ⟨t, ht1, ht2, rfl⟩)
        · exact ⟨i, le_refl i, h2, rfl⟩
        · exact ⟨t, by omega, ht2, rfl⟩
      · rintro ⟨t, ht1, ht2, rfl⟩
        rcases eq_or_lt_of_le ht1 with rfl | hlt
        · exact Or.inl rfl
        · exact Or.inr ⟨t, by omega, ht2, rfl⟩

/-- The spec's description of the single-check evasion squares: the
checking piece's own square, or — for a sliding checker — a square strictly
between the king and the checker along the recorded check direction; for a
knight checker only its own square qualifies. -/
def specEvasionOK (bd : Board) (kr kc : Int) (c : Entry) (er ec : Int) : Prop :=
  if (atB bd c.1 c.2.1).2 = TChar.tN then er = c.1 ∧ ec = c.2.1
  else (er = c.1 ∧ ec = c.2.1) ∨
    ∃ i j : Int, 1 ≤ i ∧ i < j ∧ er = kr + c.2.2.1 * i ∧ ec = kc + c.2.2.2 * i ∧
      c.1 = kr + c.2.2.1 * j ∧ c.2.1 = kc + c.2.2.2 * j

/-! ### Reachable positions -/

theorem stateInv_of_fields (s t : GameState) (hb : t.board = s.board)
    (hw : t.whiteKingLocation = s.whiteKingLocation)
    (hk : t.blackKingLocation = s.blackKingLocation) (hs : StateInv s) : StateInv t := by
  obtain ⟨h1, h2, h3, h4⟩ := hs
  refine ⟨by rw [hb]; exact h1, ?_, ?_, by rw [hb]; exact h4⟩
  · unfold cachesInRange at h2 ⊢
    rw [hw, hk]
    exact h2
  · unfold kingCachesAccurate at h3 ⊢
    rw [hb, hw, hk]
    exact h3

theorem stateInv_stmAccurate (s : GameState) (hs : StateInv s) : stmKingCacheAccurate s := by
  intro r c hsq
  by_cases hw : s.whiteToMove = true
  · rw [hw] at hsq ⊢
    have hsq' : atB s.board (r : Int) (c : Int) = (CChar.cw, TChar.tK) := hsq
    show ((r : Int), (c : Int)) = s.whiteKingLocation
    exact hs.2.2.1.1 r c hsq'
  · have hb : s.whiteToMove = false := by revert hw; cases s.whiteToMove <;> simp
    rw [hb] at hsq ⊢
    have hsq' : atB s.board (r : Int) (c : Int) = (CChar.cb, TChar.tK) := hsq
    show ((r : Int), (c : Int)) = s.blackKingLocation
    exact hs.2.2.1.2 r c hsq'

/-- The positions reachable in play: from a fresh game, repeatedly call
`getValidMoves` (which mutates the derived per-query fields) and apply one
of the returned moves with `makeMove`, as the presentation loop does. -/
inductive Reach : GameState → Prop where
  | base : Reach newGame
  | step (s : GameState) (m : Move) (h : Reach s) (hm : m ∈ (getValidMoves s).2) :
      Reach (makeMove (getValidMoves s).1 m)

theorem reach_inv (s : GameState) (h : Reach s) : StateInv s := by
  induction h with
  | base => exact stateInv_newGame
  | step s m _ hm ih =>
    have hframe := getValidMoves_frame s (stateInv_stmAccurate s ih)
    have hinv1 : StateInv (getValidMoves s).1 :=
      stateInv_of_fields s _ hframe.1 hframe.2.2.2.1 hframe.2.2.2.2 ih
    have hmok : MoveOK (getValidMoves s).1.board m := by
      rw [hframe.1]
      exact getValidMoves_moveOK s ih.2.2.2 ih.2.1 m hm
    exact stateInv_makeMove _ m hinv1 hmok

/-! ### Concrete games used as evidence -/

/-- 1. e4 d5  2. exd5 Qxd5  3. Ke2 Qe4+  4. Ke1?? — each move is drawn from
`getValidMoves`; the last one is accepted only because the hypothetical
king-placement scan still sees the king on e2, shielding e1 from the queen
on e4. -/
def c1Game : List ((Int × Int) × (Int × Int)) :=
  [((6, 4), (4, 4)), ((1, 3), (3, 3)), ((4, 4), (3, 3)), ((0, 3), (3, 3)),
   ((7, 4), (6, 4)), ((3, 3), (4, 4)), ((6, 4), (7, 4))]

/-- 1. d4 e6  2. Qd2 Bb4 — the bishop on b4 pins the white queen on d2
against the king on e1 along the up-left diagonal. -/
def c2Game : List ((Int × Int) × (Int × Int)) :=
  [((6, 3), (4, 3)), ((1, 4), (2, 4)), ((7, 3), (6, 3)), ((0, 5), (4, 1))]

/-- 1. d4 h5  2. Kd2 h4  3. Kd3 h3  4. Nf3 hxg2  5. a4 gxh1=Q  6. Bg2 Qe1
7. Ke4 a5 — now the white pawn on e2 is pinned from behind (direction
(1,0)) by the promoted black queen on e1, with the white king up the board
on e4. -/
def c5Game : List ((Int × Int) × (Int × Int)) :=
  [((6, 3), (4, 3)), ((1, 7), (3, 7)), ((7, 4), (6, 3)), ((3, 7), (4, 7)),
   ((6, 3), (5, 3)), ((4, 7), (5, 7)), ((7, 6), (5, 5)), ((5, 7), (6, 6)),
   ((6, 0), (4, 0)), ((6, 6), (7, 7)), ((7, 5), (6, 6)), ((7, 7), (7, 4)),
   ((5, 3), (4, 4)), ((1, 0), (3, 0))]

/-! ### Claim theorems -/

/-- C1 (code bug): after the engine-legal sequence 1. e4 d5 2. exd5 Qxd5
3. Ke2 Qe4+ 4. Ke1 — every move taken from `getValidMoves` — the white
king that just moved stands on e1 = (7,4) and is in check from the black
queen (the engine's own ray scan for White reports check), contradicting
"a king never ends a turn on an attacked square". -/
theorem claim_C1_king_ends_turn_attacked :
    coordMovesValid newGame c1Game = true ∧
    (applyCoordMoves newGame c1Game).whiteToMove = false ∧
    (applyCoordMoves newGame c1Game).whiteKingLocation = (7, 4) ∧
    atB (applyCoordMoves newGame c1Game).board 7 4 = (CChar.cw, TChar.tK) ∧
    (checkForPinsAndChecksAt (applyCoordMoves newGame c1Game).board true 7 4).1 = true := by
  decide

/-- C2 (code bug): after the engine-legal sequence 1. d4 e6 2. Qd2 Bb4 the
scan reports the white queen on d2 = (6,3) pinned with direction (-1,-1),
yet `getValidMoves` contains the queen move d2-d3, whose step (-1,0) lies
neither along the pin direction nor its opposite: `getQueenMoves` runs
`getBishopMoves` first, which deletes the queen's pin entry, so the rook
half generates unrestricted moves. -/
theorem claim_C2_pinned_queen_moves_off_line :
    coordMovesValid newGame c2Game = true ∧
    (checkForPinsAndChecks (applyCoordMoves newGame c2Game)).2.1 = [(6, 3, -1, -1)] ∧
    (checkForPinsAndChecks (applyCoordMoves newGame c2Game)).1 = false ∧
    atB (applyCoordMoves newGame c2Game).board 6 3 = (CChar.cw, TChar.tQ) ∧
    mkMove (6, 3) (5, 3) (applyCoordMoves newGame c2Game).board ∈
      (getValidMoves (applyCoordMoves newGame c2Game)).2 ∧
    ((5 : Int) - 6, (3 : Int) - 3) ≠ ((-1 : Int), (-1 : Int)) ∧
    ((5 : Int) - 6, (3 : Int) - 3) ≠ ((1 : Int), (1 : Int)) := by
  decide

/-- C3 (confirmed): for every position reachable in play and every move of
its `getValidMoves` list, `undoMove` after `makeMove` restores the full
state exactly — in particular all 64 board squares, the side-to-move flag
and both king-square caches return to their values before `makeMove` (and
those of the queried position `s` itself, whose persistent fields
`getValidMoves` does not change). -/
theorem claim_C3_make_undo_restores (s : GameState) (m : Move) (h : Reach s)
    (hm : m ∈ (getValidMoves s).2) :
    undoMove (makeMove (getValidMoves s).1 m) = (getValidMoves s).1 ∧
    restoresTo (undoMove (makeMove (getValidMoves s).1 m)) s := by
  have hinv := reach_inv s h
  have hframe := getValidMoves_frame s (stateInv_stmAccurate s hinv)
  have hinv1 : StateInv (getValidMoves s).1 :=
    stateInv_of_fields s _ hframe.1 hframe.2.2.2.1 hframe.2.2.2.2 hinv
  have hmok : MoveOK (getValidMoves s).1.board m := by
    rw [hframe.1]
    exact getValidMoves_moveOK s hinv.2.2.2 hinv.2.1 m hm
  have heq := undo_makeMove _ m hinv1.1 hinv1.2.2.1 hmok
  refine ⟨heq, ?_⟩
  rw [heq]
  exact ⟨fun r c => by rw [hframe.1], hframe.2.1, hframe.2.2.2.1, hframe.2.2.2.2⟩

theorem claim_C3_witness :
    undoMove (makeMove (getValidMoves newGame).1 (mkMove (6, 4) (4, 4) newGame.board))
        = (getValidMoves newGame).1 ∧
    restoresTo
      (undoMove (makeMove (getValidMoves newGame).1 (mkMove (6, 4) (4, 4) newGame.board)))
      newGame :=
  claim_C3_make_undo_restores newGame _ Reach.base (by decide)

/-- C10 (confirmed): a `getValidMoves` call never changes the persistent
game state: board, side-to-move flag, move log and both king-location
caches of the returned state equal the input's (the caches are temporarily
moved during king-move validation but exactly restored), for every state
whose side-to-move king cache is accurate — as it is in every reachable
position; only the derived fields `inCheck`, `pins`, `checks` are
rewritten. -/
theorem claim_C10_getValidMoves_frame (s : GameState) (h : stmKingCacheAccurate s) :
    (getValidMoves s).1.board = s.board ∧
    (getValidMoves s).1.whiteToMove = s.whiteToMove ∧
    (getValidMoves s).1.moveLog = s.moveLog ∧
    (getValidMoves s).1.whiteKingLocation = s.whiteKingLocation ∧
    (getValidMoves s).1.blackKingLocation = s.blackKingLocation :=
  getValidMoves_frame s h

theorem claim_C10_witness :
    (getValidMoves newGame).1.board = newGame.board ∧
    (getValidMoves newGame).1.whiteToMove = newGame.whiteToMove ∧
    (getValidMoves newGame).1.moveLog = newGame.moveLog ∧
    (getValidMoves newGame).1.whiteKingLocation = newGame.whiteKingLocation ∧
    (getValidMoves newGame).1.blackKingLocation = newGame.blackKingLocation :=
  claim_C10_getValidMoves_frame newGame (by decide)

/-- The position after 1. e4 d5 2. exd5 Qxd5 3. Ke2 Qe4+ : white to move,
in check from the queen on e4 along the open e-file — a single recorded
check. -/
def c4Position : GameState := applyCoordMoves newGame (c1Game.take 6)

/-- C4 (confirmed): when the scan records exactly one check `c`, a move is
returned by `getValidMoves` iff it is one of the pseudo-legal moves of the
full board sweep (run with the scan's pins) and either moves a king or ends
on a spec-described evasion square: the checker's own square, or — for a
sliding checker — strictly between king and checker along the recorded
direction; for a knight checker only the knight's square qualifies. -/
theorem claim_C4_single_check_filter (s : GameState) (ps : List Entry) (c : Entry)
    (hscan : checkForPinsAndChecks s = (true, ps, [c])) (m : Move) :
    m ∈ (getValidMoves s).2 ↔
      (m ∈ (getAllPossibleMoves s.board s.whiteToMove ps s.whiteKingLocation
        s.blackKingLocation).moves ∧
       (m.pieceMoved.2 = TChar.tK ∨
        specEvasionOK s.board
          (if s.whiteToMove then s.whiteKingLocation else s.blackKingLocation).1
          (if s.whiteToMove then s.whiteKingLocation else s.blackKingLocation).2
          c m.endRow m.endCol)) := by
  have hcmem : c ∈ (checkForPinsAndChecksAt s.board s.whiteToMove
      (if s.whiteToMove then s.whiteKingLocation else s.blackKingLocation).1
      (if s.whiteToMove then s.whiteKingLocation else s.blackKingLocation).2).2.2 := by
    have h2 : checkForPinsAndChecksAt s.board s.whiteToMove
        (if s.whiteToMove then s.whiteKingLocation else s.blackKingLocation).1
        (if s.whiteToMove then s.whiteKingLocation else s.blackKingLocation).2
        = (true, ps, [c]) := hscan
    rw [h2]
    exact List.mem_singleton.2 rfl
  unfold getValidMoves
  dsimp only []
  rw [hscan]
  dsimp only []
  rw [if_pos rfl]
  rw [if_pos (show [c].length = 1 from rfl)]
  simp only [List.headI_cons]
  rw [List.mem_filter, decide_eq_true_eq]
  refine and_congr_right (fun _ => or_congr_right ?_)
  by_cases hN : (atB s.board c.1 c.2.1).2 = TChar.tN
  · rw [if_pos hN, List.mem_singleton]
    unfold specEvasionOK
    rw [if_pos hN, Prod.mk.injEq]
  · rw [if_neg hN]
    unfold specEvasionOK
    rw [if_neg hN]
    rcases scan_checks_mem s.board s.whiteToMove _ _ c hcmem with hN2 | ⟨-, k, hk1, hk7, hc1, hc2, hdnz⟩
    · exact absurd hN2 hN
    · rw [buildValidSquares_mem _ _ _ _ _ _ hdnz k hc1 hc2 7 1 (by omega) hk1 (by omega)]
      constructor
      · rintro ⟨t, ht1, ht2, heq⟩
        have her := congrArg Prod.fst heq
        have hec := congrArg Prod.snd heq
        dsimp only [] at her hec
        rcases eq_or_lt_of_le ht2 with rfl | hlt
        · exact Or.inl ⟨by rw [her, hc1], by rw [hec, hc2]⟩
        · exact Or.inr ⟨t, k, ht1, hlt, her, hec, hc1, hc2⟩
      · rintro (⟨her, hec⟩ | ⟨i, j, hi1, hij, her, hec, hcj1, hcj2⟩)
        · exact ⟨k, hk1, le_refl k, Prod.ext (her.trans hc1) (hec.trans hc2)⟩
        · have e1 : c.2.2.1 * j = c.2.2.1 * k := add_left_cancel (hcj1.symm.trans hc1)
          have e2 : c.2.2.2 * j = c.2.2.2 * k := add_left_cancel (hcj2.symm.trans hc2)
          have hjk : j = k := ray_step_inj _ _ hdnz j k e1 e2
          exact ⟨i, hi1, by omega, Prod.ext her hec⟩

theorem claim_C4_witness :
    mkMove (6, 4) (7, 4) c4Position.board ∈ (getValidMoves c4Position).2 ↔
      (mkMove (6, 4) (7, 4) c4Position.board ∈
        (getAllPossibleMoves c4Position.board c4Position.whiteToMove []
          c4Position.whiteKingLocation c4Position.blackKingLocation).moves ∧
       ((mkMove (6, 4) (7, 4) c4Position.board).pieceMoved.2 = TChar.tK ∨
        specEvasionOK c4Position.board
          (if c4Position.whiteToMove then c4Position.whiteKingLocation
            else c4Position.blackKingLocation).1
          (if c4Position.whiteToMove then c4Position.whiteKingLocation
            else c4Position.blackKingLocation).2
          (4, 4, -1, 0)
          (mkMove (6, 4) (7, 4) c4Position.board).endRow
          (mkMove (6, 4) (7, 4) c4Position.board).endCol)) :=
  claim_C4_single_check_filter c4Position [] (4, 4, -1, 0) (by decide) _

/-- C5 (counterexample): after the engine-legal 14-ply game `c5Game` the
white pawn on e2 = (6,4) is reported pinned with direction d = (1,0), the
square e3 = (5,4) ahead of it is empty, and the advance step (-1,0) is
exactly the opposite of d — it lies on the pin line, so the claim's "if and
only if" requires the advance to be generated — yet no move from (6,4) to
(5,4) is in `getValidMoves`: the code compares the pin direction with
(-1,0) only, never with its opposite. -/
theorem claim_C5_counterexample :
    coordMovesValid newGame c5Game = true ∧
    (checkForPinsAndChecks (applyCoordMoves newGame c5Game)).1 = false ∧
    (checkForPinsAndChecks (applyCoordMoves newGame c5Game)).2.1 = [(6, 4, 1, 0)] ∧
    atB (applyCoordMoves newGame c5Game).board 6 4 = (CChar.cw, TChar.tp) ∧
    atB (applyCoordMoves newGame c5Game).board 5 4 = empSq ∧
    ((5 : Int) - 6, (4 : Int) - 4) = (-(1 : Int), -(0 : Int)) ∧
    mkMove (6, 4) (5, 4) (applyCoordMoves newGame c5Game).board ∉
      (getValidMoves (applyCoordMoves newGame c5Game)).2 := by
  decide

/-- C5 (amended): when the pin scan reports the pawn on `(row, col)` as
pinned (the backwards scan over `self.pins` finds entry `p`, whose last
two components are the recorded pin direction d), a pseudo-legal pawn
advance or diagonal capture of that pawn is included in the generated
moves if and only if that action's step direction EQUALS d — the code
never compares with the exact opposite of d, so a pawn pinned from behind
cannot advance along the pin line. -/
theorem claim_C5_amended_pinned_pawn (bd : Board) (wtm : Bool) (pins : List Entry)
    (row col : Int) (p : Entry) (hc0 : 0 ≤ col) (hc7 : col ≤ 7)
    (hfind : findPinFromBack pins row col = some p) (er ec : Int) :
    mkMove (row, col) (er, ec) bd ∈ (getPawnMoves bd wtm pins row col).2 ↔
      (specPawnStep bd wtm row col er ec ∧
        pawnStepDir wtm ec col = (p.2.2.1, p.2.2.2)) := by
  unfold getPawnMoves
  dsimp only []
  rw [hfind]
  simp only [Option.isSome_some, eq_self_iff_true, not_true, false_or]
  by_cases hwt : wtm = true
  · subst hwt
    constructor
    · intro hm
      rcases mem_ite_list hm with ⟨-, hm⟩ | ⟨hf, -⟩
      swap
      · exact absurd rfl hf
      rcases List.mem_append.1 hm with hm | hm
      · rcases List.mem_append.1 hm with hm | hm
        · -- advances
          rcases mem_ite_list hm with ⟨hempty, hm⟩ | ⟨-, hm⟩
          swap
          · cases hm
          rcases mem_ite_list hm with ⟨hdir, hm⟩ | ⟨-, hm⟩
          swap
          · cases hm
          rcases List.mem_cons.1 hm with heq | hm
          · have hend := mkMove_end_inj bd _ _ _ heq
            have her : er = row - 1 := congrArg Prod.fst hend
            have hec : ec = col := congrArg Prod.snd hend
            refine ⟨?_, ?_⟩
            · unfold specPawnStep
              rw [if_pos rfl]
              exact Or.inl ⟨her, hec, hempty⟩
            · rw [hec]
              have h1 : pawnStepDir true col col = ((-1 : Int), 0) :=
                pawnStepDir_same true col
              rw [h1]
              exact hdir.symm
          · rcases mem_ite_list hm with ⟨⟨h6, hempty2⟩, hm2⟩ | ⟨-, hm2⟩
            swap
            · cases hm2
            have heq := List.mem_singleton.1 hm2
            have hend := mkMove_end_inj bd _ _ _ heq
            have her : er = row - 2 := congrArg Prod.fst hend
            have hec : ec = col := congrArg Prod.snd hend
            refine ⟨?_, ?_⟩
            · unfold specPawnStep
              rw [if_pos rfl]
              exact Or.inr (Or.inl ⟨her, hec, h6, hempty, hempty2⟩)
            · rw [hec]
              have h1 : pawnStepDir true col col = ((-1 : Int), 0) :=
                pawnStepDir_same true col
              rw [h1]
              exact hdir.symm
        · -- capture to the left
          rcases mem_ite_list hm with ⟨hgeb, hm⟩ | ⟨-, hm⟩
          swap
          · cases hm
          rcases mem_ite_list hm with ⟨henemy, hm⟩ | ⟨-, hm⟩
          swap
          · cases hm
          rcases mem_ite_list hm with ⟨hdir, hm⟩ | ⟨-, hm⟩
          swap
          · cases hm
          have heq := List.mem_singleton.1 hm
          have hend := mkMove_end_inj bd _ _ _ heq
          have her : er = row - 1 := congrArg Prod.fst hend
          have hec : ec = col - 1 := congrArg Prod.snd hend
          refine ⟨?_, ?_⟩
          · unfold specPawnStep
            rw [if_pos rfl]
            refine Or.inr (Or.inr ⟨her, Or.inl hec, by omega, by omega, ?_⟩)
            rw [hec]
            exact henemy
          · have h1 : pawnStepDir true ec col = ((-1 : Int), -1) :=
              pawnStepDir_left true ec col hec
            rw [h1]
            exact hdir.symm
      · -- capture to the right
        rcases mem_ite_list hm with ⟨hle7, hm⟩ | ⟨-, hm⟩
        swap
        · cases hm
        rcases mem_ite_list hm with ⟨henemy, hm⟩ | ⟨-, hm⟩
        swap
        · cases hm
        rcases mem_ite_list hm with ⟨hdir, hm⟩ | ⟨-, hm⟩
        swap
        · cases hm
        have heq := List.mem_singleton.1 hm
        have hend := mkMove_end_inj bd _ _ _ heq
        have her : er = row - 1 := congrArg Prod.fst hend
        have hec : ec = col + 1 := congrArg Prod.snd hend
        refine ⟨?_, ?_⟩
        · unfold specPawnStep
          rw [if_pos rfl]
          refine Or.inr (Or.inr ⟨her, Or.inr hec, by omega, by omega, ?_⟩)
          rw [hec]
          exact henemy
        · have h1 : pawnStepDir true ec col = ((-1 : Int), 1) :=
            pawnStepDir_right true ec col hec
          rw [h1]
          exact hdir.symm
    · rintro ⟨hspec, hdir⟩
      unfold specPawnStep at hspec
      rw [if_pos rfl] at hspec
      rw [if_pos rfl]
      rcases hspec with ⟨her, hec, hempty⟩ | ⟨her, hec, h6, hempty1, hempty2⟩ |
        ⟨her, hecor, hec0, hec7, henemy⟩
      · rw [hec] at hdir
        rw [pawnStepDir_same true col] at hdir
        have hdir' : (p.2.2.1, p.2.2.2) = ((-1 : Int), 0) := hdir.symm
        subst her
        subst hec
        apply List.mem_append_left
        apply List.mem_append_left
        rw [if_pos hempty, if_pos hdir']
        exact List.mem_cons_self _ _
      · rw [hec] at hdir
        rw [pawnStepDir_same true col] at hdir
        have hdir' : (p.2.2.1, p.2.2.2) = ((-1 : Int), 0) := hdir.symm
        subst her
        subst hec
        apply List.mem_append_left
        apply List.mem_append_left
        rw [if_pos hempty1, if_pos hdir']
        apply List.mem_cons_of_mem
        rw [if_pos ⟨h6, hempty2⟩]
        exact List.mem_singleton.2 rfl
      · rcases hecor with hec | hec
        · rw [pawnStepDir_left true ec col hec] at hdir
          have hdir' : (p.2.2.1, p.2.2.2) = ((-1 : Int), -1) := hdir.symm
          subst her
          apply List.mem_append_left
          apply List.mem_append_right
          rw [if_pos (by omega : col - 1 ≥ 0)]
          rw [hec] at henemy ⊢
          rw [if_pos henemy, if_pos hdir']
          exact List.mem_singleton.2 rfl
        · rw [pawnStepDir_right true ec col hec] at hdir
          have hdir' : (p.2.2.1, p.2.2.2) = ((-1 : Int), 1) := hdir.symm
          subst her
          apply List.mem_append_right
          rw [if_pos (by omega : col + 1 ≤ 7)]
          rw [hec] at henemy ⊢
          rw [if_pos henemy, if_pos hdir']
          exact List.mem_singleton.2 rfl
  · have hwf : wtm = false := by revert hwt; cases wtm <;> simp
    subst hwf
    have hnot : ¬(false = true) := by decide
    constructor
    · intro hm
      rcases mem_ite_list hm with ⟨hf, -⟩ | ⟨-, hm⟩
      · exact absurd hf hnot
      rcases List.mem_append.1 hm with hm | hm
      · rcases List.mem_append.1 hm with hm | hm
        · -- advances
          rcases mem_ite_list hm with ⟨hempty, hm⟩ | ⟨-, hm⟩
          swap
          · cases hm
          rcases mem_ite_list hm with ⟨hdir, hm⟩ | ⟨-, hm⟩
          swap
          · cases hm
          rcases List.mem_cons.1 hm with heq | hm
          · have hend := mkMove_end_inj bd _ _ _ heq
            have her : er = row + 1 := congrArg Prod.fst hend
            have hec : ec = col := congrArg Prod.snd hend
            refine ⟨?_, ?_⟩
            · unfold specPawnStep
              rw [if_neg hnot]
              exact Or.inl ⟨her, hec, hempty⟩
            · rw [hec]
              have h1 : pawnStepDir false col col = ((1 : Int), 0) :=
                pawnStepDir_same false col
              rw [h1]
              exact hdir.symm
          · rcases mem_ite_list hm with ⟨⟨h1r, hempty2⟩, hm2⟩ | ⟨-, hm2⟩
            swap
            · cases hm2
            have heq := List.mem_singleton.1 hm2
            have hend := mkMove_end_inj bd _ _ _ heq
            have her : er = row + 2 := congrArg Prod.fst hend
            have hec : ec = col := congrArg Prod.snd hend
            refine ⟨?_, ?_⟩
            · unfold specPawnStep
              rw [if_neg hnot]
              exact Or.inr (Or.inl ⟨her, hec, h1r, hempty, hempty2⟩)
            · rw [hec]
              have h1 : pawnStepDir false col col = ((1 : Int), 0) :=
                pawnStepDir_same false col
              rw [h1]
              exact hdir.symm
        · -- capture to the left
          rcases mem_ite_list hm with ⟨hgeb, hm⟩ | ⟨-, hm⟩
          swap
          · cases hm
          rcases mem_ite_list hm with ⟨henemy, hm⟩ | ⟨-, hm⟩
          swap
          · cases hm
          rcases mem_ite_list hm with ⟨hdir, hm⟩ | ⟨-, hm⟩
          swap
          · cases hm
          have heq := List.mem_singleton.1 hm
          have hend := mkMove_end_inj bd _ _ _ heq
          have her : er = row + 1 := congrArg Prod.fst hend
          have hec : ec = col - 1 := congrArg Prod.snd hend
          refine ⟨?_, ?_⟩
          · unfold specPawnStep
            rw [if_neg hnot]
            refine Or.inr (Or.inr ⟨her, Or.inl hec, by omega, by omega, ?_⟩)
            rw [hec]
            exact henemy
          · have h1 : pawnStepDir false ec col = ((1 : Int), -1) :=
              pawnStepDir_left false ec col hec
            rw [h1]
            exact hdir.symm
      · -- capture to the right
        rcases mem_ite_list hm with ⟨hle7, hm⟩ | ⟨-, hm⟩
        swap
        · cases hm
        rcases mem_ite_list hm with ⟨henemy, hm⟩ | ⟨-, hm⟩
        swap
        · cases hm
        rcases mem_ite_list hm with ⟨hdir, hm⟩ | ⟨-, hm⟩
        swap
        · cases hm
        have heq := List.mem_singleton.1 hm
        have hend := mkMove_end_inj bd _ _ _ heq
        have her : er = row + 1 := congrArg Prod.fst hend
        have hec : ec = col + 1 := congrArg Prod.snd hend
        refine ⟨?_, ?_⟩
        · unfold specPawnStep
          rw [if_neg hnot]
          refine Or.inr (Or.inr ⟨her, Or.inr hec, by omega, by omega, ?_⟩)
          rw [hec]
          exact henemy
        · have h1 : pawnStepDir false ec col = ((1 : Int), 1) :=
            pawnStepDir_right false ec col hec
          rw [h1]
          exact hdir.symm
    · rintro ⟨hspec, hdir⟩
      unfold specPawnStep at hspec
      rw [if_neg hnot] at hspec
      rw [if_neg hnot]
      rcases hspec with ⟨her, hec, hempty⟩ | ⟨her, hec, h1r, hempty1, hempty2⟩ |
        ⟨her, hecor, hec0, hec7, henemy⟩
      · rw [hec] at hdir
        rw [pawnStepDir_same false col] at hdir
        have hdir' : (p.2.2.1, p.2.2.2) = ((1 : Int), 0) := hdir.symm
        subst her
        subst hec
        apply List.mem_append_left
        apply List.mem_append_left
        rw [if_pos hempty, if_pos hdir']
        exact List.mem_cons_self _ _
      · rw [hec] at hdir
        rw [pawnStepDir_same false col] at hdir
        have hdir' : (p.2.2.1, p.2.2.2) = ((1 : Int), 0) := hdir.symm
        subst her
        subst hec
        apply List.mem_append_left
        apply List.mem_append_left
        rw [if_pos hempty1, if_pos hdir']
        apply List.mem_cons_of_mem
        rw [if_pos ⟨h1r, hempty2⟩]
        exact List.mem_singleton.2 rfl
      · rcases hecor with hec | hec
        · rw [pawnStepDir_left false ec col hec] at hdir
          have hdir' : (p.2.2.1, p.2.2.2) = ((1 : Int), -1) := hdir.symm
          subst her
          apply List.mem_append_left
          apply List.mem_append_right
          rw [if_pos (by omega : col - 1 ≥ 0)]
          rw [hec] at henemy ⊢
          rw [if_pos henemy, if_pos hdir']
          exact List.mem_singleton.2 rfl
        · rw [pawnStepDir_right false ec col hec] at hdir
          have hdir' : (p.2.2.1, p.2.2.2) = ((1 : Int), 1) := hdir.symm
          subst her
          apply List.mem_append_right
          rw [if_pos (by omega : col + 1 ≤ 7)]
          rw [hec] at henemy ⊢
          rw [if_pos henemy, if_pos hdir']
          exact List.mem_singleton.2 rfl

theorem claim_C5_witness :
    mkMove (5, 4) (4, 4) (setB (setB initialBoard 6 4 empSq) 5 4 (CChar.cw, TChar.tp)) ∈
      (getPawnMoves (setB (setB initialBoard 6 4 empSq) 5 4 (CChar.cw, TChar.tp)) true
        [(5, 4, 1, 0)] 5 4).2 ↔
    (specPawnStep (setB (setB initialBoard 6 4 empSq) 5 4 (CChar.cw, TChar.tp)) true 5 4 4 4 ∧
      pawnStepDir true 4 4 = (((5, 4, 1, 0) : Entry).2.2.1, ((5, 4, 1, 0) : Entry).2.2.2)) :=
  claim_C5_amended_pinned_pawn _ true [(5, 4, 1, 0)] 5 4 (5, 4, 1, 0)
    (by decide) (by decide) (by decide) 4 4

/-- C6 (confirmed): `getValidMoves()` on a fresh game returns exactly 20
moves — for each of the 8 pawns its one- and two-square advances, and the
two moves of each knight. -/
theorem claim_C6_initial_position_twenty_moves :
    (getValidMoves newGame).2.length = 20 ∧
    (getValidMoves newGame).2.map (fun m => ((m.startRow, m.startCol), (m.endRow, m.endCol)))
      = [((6, 0), (5, 0)), ((6, 0), (4, 0)), ((6, 1), (5, 1)), ((6, 1), (4, 1)),
         ((6, 2), (5, 2)), ((6, 2), (4, 2)), ((6, 3), (5, 3)), ((6, 3), (4, 3)),
         ((6, 4), (5, 4)), ((6, 4), (4, 4)), ((6, 5), (5, 5)), ((6, 5), (4, 5)),
         ((6, 6), (5, 6)), ((6, 6), (4, 6)), ((6, 7), (5, 7)), ((6, 7), (4, 7)),
         ((7, 1), (5, 0)), ((7, 1), (5, 2)), ((7, 6), (5, 5)), ((7, 6), (5, 7))] := by
  decide

/-- C7 (counterexample): a `Move` built by the `Move` constructor from a
doctored board records `pieceCaptured = "wK"`; its `pieceMoved` matches the
real board's start square, so it satisfies the claim's stated precondition,
`makeMove` preserves the king-cache invariant — but the subsequent
`undoMove` writes the phantom `"wK"` back onto e3, breaking it. -/
theorem claim_C7_counterexample :
    (mkMove (6, 4) (5, 4) (setB initialBoard 5 4 (CChar.cw, TChar.tK))).pieceMoved
        = atB newGame.board 6 4 ∧
    kingCachesAccurate newGame ∧
    kingCachesAccurate (makeMove newGame
      (mkMove (6, 4) (5, 4) (setB initialBoard 5 4 (CChar.cw, TChar.tK)))) ∧
    ¬ kingCachesAccurate (undoMove (makeMove newGame
      (mkMove (6, 4) (5, 4) (setB initialBoard 5 4 (CChar.cw, TChar.tK))))) := by
  decide

/-- C7 (amended): along every trajectory of `makeMove` calls whose moves are
structurally consistent with the current board — `pieceMoved` AND
`pieceCaptured` match the pieces on the start and end squares, as for every
move the `Move` constructor builds from the live board — and arbitrary
`undoMove` calls, the king-location caches stay accurate: every square
holding `"wK"`/`"bK"` is the cached white/black king location. -/
theorem claim_C7_amended_cache_invariant (s : GameState) (h : ConsTraj s) :
    kingCachesAccurate s :=
  (consTraj_inv s h).2.2.1

theorem claim_C7_witness :
    kingCachesAccurate (undoMove (makeMove newGame (mkMove (6, 4) (4, 4) newGame.board))) :=
  claim_C7_amended_cache_invariant _
    (ConsTraj.undo _ (ConsTraj.play _ _ ConsTraj.base (by decide)))

/-- C8 (confirmed): for moves built by the `Move` constructor from board
coordinates in 0..7 — over arbitrary (possibly different) boards, so that
`pieceMoved`, `pieceCaptured` and the promotion flag are arbitrary —
`__eq__` (comparison of `moveID`s) holds iff start squares and end squares
agree: the base-10 encoding r*1000 + c*100 + r'*10 + c' is injective on
digits 0..7. -/
theorem claim_C8_move_equality (bd1 bd2 : Board) (r1 c1 e1 f1 r2 c2 e2 f2 : Int)
    (h1 : 0 ≤ r1 ∧ r1 ≤ 7 ∧ 0 ≤ c1 ∧ c1 ≤ 7 ∧ 0 ≤ e1 ∧ e1 ≤ 7 ∧ 0 ≤ f1 ∧ f1 ≤ 7)
    (h2 : 0 ≤ r2 ∧ r2 ≤ 7 ∧ 0 ≤ c2 ∧ c2 ≤ 7 ∧ 0 ≤ e2 ∧ e2 ≤ 7 ∧ 0 ≤ f2 ∧ f2 ≤ 7) :
    moveEq (mkMove (r1, c1) (e1, f1) bd1) (mkMove (r2, c2) (e2, f2) bd2) = true ↔
      ((r1, c1) = (r2, c2) ∧ (e1, f1) = (e2, f2)) := by
  have hID : moveEq (mkMove (r1, c1) (e1, f1) bd1) (mkMove (r2, c2) (e2, f2) bd2) =
      ((r1 * 1000 + c1 * 100 + e1 * 10 + f1 : Int) ==
        (r2 * 1000 + c2 * 100 + e2 * 10 + f2 : Int)) := rfl
  rw [hID, beq_iff_eq, Prod.mk.injEq, Prod.mk.injEq]
  constructor <;> intro h <;> omega

theorem claim_C8_witness :
    moveEq (mkMove (6, 4) (4, 4) initialBoard)
        (mkMove (6, 4) (4, 4) (setB initialBoard 4 4 (CChar.cb, TChar.tp))) = true ↔
      (((6 : Int), (4 : Int)) = ((6 : Int), (4 : Int)) ∧
        ((4 : Int), (4 : Int)) = ((4 : Int), (4 : Int))) :=
  claim_C8_move_equality _ _ _ _ _ _ _ _ _ _ (by decide) (by decide)

/-- C9 (confirmed): `undoMove` on a state with an empty move log is a
complete no-op — the whole state, board, side to move, move log and king
caches included, is returned unchanged. -/
theorem claim_C9_undo_empty_history_noop (s : GameState) (h : s.moveLog = []) :
    undoMove s = s :=
  undoMove_nil s h

theorem claim_C9_witness : undoMove newGame = newGame :=
  claim_C9_undo_empty_history_noop newGame rfl

end ChessBot
